import Mathlib

/-!
Verification of the value-extraction and change-detection engine of
`website_change_radar_discord.py`.

Python strings are sequences of Unicode code points, so page text, extracted
values and ledger keys are modelled as `List Char` (`PyStr`); Python slicing
`text[:160]` is `List.take 160`, and string comparison is code-point
lexicographic.  The regular expressions of the source
(`PRICE_PATTERN`, `STOCK_PREV_CLOSE_PATTERN`, `PYTHON_VERSION_PATTERN`, and the
numeric-token pattern of `parse_number_from_value`) are simple enough that
Python's leftmost-greedy matching is realized by a direct scan
(`searchAt`): at each start position the pattern either matches greedily or
fails, with no backtracking, because no subpattern can consume a character the
following subpattern needs.

Modelling notes, stated once here:
* `\s` (Unicode whitespace for `str` patterns) is embedded as the explicit
  code-point list `pySpaceChars`.
* `\d` in `PYTHON_VERSION_PATTERN` is the full Unicode decimal-digit set,
  embedded as the code-point ranges `pyDigitRanges` (the other patterns use
  the explicit class `[0-9]` and stay ASCII).
* Python `float` is embedded as IEEE-754 binary64: a finite value is carried
  as its exact rational, `float(token)` and the subtraction of
  `describe_difference` round to nearest with ties to even (`rhe`, `roundPos`),
  overflow gives a signed infinity and `inf - inf` gives NaN (`PyFloat`), and
  `f"{diff:+.2f}"` renders the double rounded half-to-even to hundredths
  (`formatPlus2f`), as CPython's `float.__format__` does.
* `re.IGNORECASE` on the ASCII letters of `STOCK_PREV_CLOSE_PATTERN` is
  modelled as ASCII lower-casing plus the two Unicode aliases U+017F -> s and
  U+212A -> k that CPython's `sre` adds for ASCII pattern letters.
* The source file is mojibake-encoded: the character class of `PRICE_PATTERN`
  is literally `[Â£$]` (the bytes of the intended `[£$]` re-decoded),
  and the arrows of `describe_difference` are the three-character strings
  embedded below.  The embedding reproduces the file as it is.
-/

/-- Python `str` modelled as its sequence of code points. -/
abbrev PyStr := List Char

/-- The ASCII digit class `[0-9]` used literally in the source patterns. -/
def isDigit (c : Char) : Bool := 48 ≤ c.toNat && c.toNat ≤ 57

/-- The class `[0-9,]` inside the numeric-token pattern. -/
def isDigitOrComma (c : Char) : Bool := isDigit c || c == ','

/-- The code points matched by `\s` in a Python `str` pattern. -/
def pySpaceChars : List Char :=
  ['\t', '\n', '\x0b', '\x0c', '\r', '\x1c', '\x1d', '\x1e', '\x1f', ' ',
   '\u0085', '\u00a0', '\u1680', '\u2000', '\u2001', '\u2002', '\u2003',
   '\u2004', '\u2005', '\u2006', '\u2007', '\u2008', '\u2009', '\u200a',
   '\u2028', '\u2029', '\u202f', '\u205f', '\u3000']

def isPySpace (c : Char) : Bool := pySpaceChars.contains c

/-- Case folding applied by `re.IGNORECASE` to the ASCII pattern letters:
ASCII lower-casing plus sre's extra equivalences U+017F (long s) and
U+212A (Kelvin sign). -/
def pyLower (c : Char) : Char :=
  if c.toNat = 0x17f then 's'
  else if c.toNat = 0x212a then 'k'
  else c.toLower

/-- Match the token `[0-9][0-9,]*(?:\.[0-9]{2})?` at the head of `cs`,
greedily, returning the matched text and the remaining input.  The `[0-9,]*`
run is maximal; the optional `\.[0-9]{2}` tail is then taken when present
(no backtracking can arise: `[0-9,]` never matches `.`). -/
def matchNumAt : PyStr → Option (PyStr × PyStr)
  | [] => none
  | c :: rest =>
    if isDigit c then
      match rest.dropWhile isDigitOrComma with
      | '.' :: d1 :: d2 :: rest2 =>
        if isDigit d1 && isDigit d2 then
          some (c :: rest.takeWhile isDigitOrComma ++ ['.', d1, d2], rest2)
        else some (c :: rest.takeWhile isDigitOrComma, rest.dropWhile isDigitOrComma)
      | _ => some (c :: rest.takeWhile isDigitOrComma, rest.dropWhile isDigitOrComma)
    else none

/-- `re.search`: try the position matcher `f` at every start position, left to
right (including the position at end of input), returning the first success. -/
def searchAt (f : PyStr → Option α) : PyStr → Option α
  | [] => f []
  | c :: rest =>
    match f (c :: rest) with
    | some a => some a
    | none => searchAt f rest

/-- The character class `[Â£$]` of `PRICE_PATTERN` — the mojibake bytes of the
source are the two code points U+00C2, U+00A3 followed by `$`. -/
def priceSymbols : List Char := ['\u00c2', '\u00a3', '$']

/-- `PRICE_PATTERN = [Â£$]\s*([0-9][0-9,]*(?:\.[0-9]{2})?)` anchored at the
current position; returns the symbol (`text[m.start()]`) and group 1. -/
def priceAt : PyStr → Option (Char × PyStr)
  | [] => none
  | c :: rest =>
    if priceSymbols.contains c then
      match matchNumAt (rest.dropWhile isPySpace) with
      | some (num, _) => some (c, num)
      | none => none
    else none

def priceSearch : PyStr → Option (Char × PyStr) := searchAt priceAt

/-- Case-insensitive literal match (pattern given lower-case),
returning the rest of the input. -/
def matchCI : PyStr → PyStr → Option PyStr
  | [], cs => some cs
  | _ :: _, [] => none
  | p :: ps, c :: cs => if pyLower c = p then matchCI ps cs else none

/-- `\s+`, greedy. -/
def matchSpaces1 : PyStr → Option PyStr
  | [] => none
  | c :: cs => if isPySpace c then some (cs.dropWhile isPySpace) else none

/-- `STOCK_PREV_CLOSE_PATTERN = Previous\s+close\s+([0-9][0-9,]*(?:\.[0-9]{2})?)`
with `re.IGNORECASE`, anchored at the current position; returns group 1. -/
def stockPrevCloseAt (cs : PyStr) : Option PyStr :=
  (matchCI "previous".data cs).bind fun r1 =>
  (matchSpaces1 r1).bind fun r2 =>
  (matchCI "close".data r2).bind fun r3 =>
  (matchSpaces1 r3).bind fun r4 =>
  (matchNumAt r4).map Prod.fst

def stockSearch : PyStr → Option PyStr := searchAt stockPrevCloseAt

/-- The 62 contiguous code-point ranges of the Unicode decimal digits
(category `Nd`): the character set the `str`-pattern `\d` of
`PYTHON_VERSION_PATTERN` matches (CPython `sre` Unicode digits).  The other
three patterns use the literal class `[0-9]` and stay ASCII. -/
def pyDigitRanges : List (Nat × Nat) :=
  [(48, 57), (1632, 1641), (1776, 1785), (1984, 1993), (2406, 2415),
   (2534, 2543), (2662, 2671), (2790, 2799), (2918, 2927), (3046, 3055),
   (3174, 3183), (3302, 3311), (3430, 3439), (3558, 3567), (3664, 3673),
   (3792, 3801), (3872, 3881), (4160, 4169), (4240, 4249), (6112, 6121),
   (6160, 6169), (6470, 6479), (6608, 6617), (6784, 6793), (6800, 6809),
   (6992, 7001), (7088, 7097), (7232, 7241), (7248, 7257), (42528, 42537),
   (43216, 43225), (43264, 43273), (43472, 43481), (43504, 43513), (43600, 43609),
   (44016, 44025), (65296, 65305), (66720, 66729), (68912, 68921), (69734, 69743),
   (69872, 69881), (69942, 69951), (70096, 70105), (70384, 70393), (70736, 70745),
   (70864, 70873), (71248, 71257), (71360, 71369), (71472, 71481), (71904, 71913),
   (72016, 72025), (72784, 72793), (73040, 73049), (73120, 73129), (92768, 92777),
   (92864, 92873), (93008, 93017), (120782, 120831), (123200, 123209), (123632, 123641),
   (125264, 125273), (130032, 130041)]

def isPyDigit (c : Char) : Bool :=
  pyDigitRanges.any fun r => decide (r.1 ≤ c.toNat ∧ c.toNat ≤ r.2)

/-- `\d+`, greedy, at the current position. -/
def matchDigits1 : PyStr → Option (PyStr × PyStr)
  | [] => none
  | c :: rest =>
    if isPyDigit c then some (c :: rest.takeWhile isPyDigit, rest.dropWhile isPyDigit)
    else none

/-- Case-sensitive literal match. -/
def matchLit : PyStr → PyStr → Option PyStr
  | [], cs => some cs
  | _ :: _, [] => none
  | p :: ps, c :: cs => if c = p then matchLit ps cs else none

/-- `PYTHON_VERSION_PATTERN = Python\s+3\.\d+\.\d+` anchored at the current
position; returns group 0 (the whole matched text). -/
def versionAt (cs : PyStr) : Option PyStr :=
  (matchLit "Python".data cs).bind fun r1 =>
  match r1 with
  | [] => none
  | s0 :: r1tail =>
    if isPySpace s0 then
      (matchLit "3.".data (r1tail.dropWhile isPySpace)).bind fun r3 =>
      (matchDigits1 r3).bind fun d1r =>
      match d1r.2 with
      | '.' :: r5 =>
        (matchDigits1 r5).map fun d2r =>
          "Python".data ++ s0 :: r1tail.takeWhile isPySpace ++ "3.".data ++
            d1r.1 ++ '.' :: d2r.1
      | _ => none
    else none

def versionSearch : PyStr → Option PyStr := searchAt versionAt

/-- Python `str.replace(" ", "")`: delete every space. -/
def pyReplaceSpace (s : PyStr) : PyStr := s.filter (· != ' ')

/-- Python `str.replace(",", "")`: delete every comma. -/
def pyReplaceComma (s : PyStr) : PyStr := s.filter (· != ',')

/-- `extract_stock_price_value`. -/
def extract_stock_price_value (text : PyStr) : PyStr :=
  match stockSearch text with
  | some num => '$' :: pyReplaceSpace num
  | none =>
    match priceSearch text with
    | some (sym, num) => sym :: pyReplaceSpace num
    | none => text.take 160

/-- The `SiteConfig` dataclass. -/
structure SiteConfig where
  id : PyStr
  url : PyStr
  description : PyStr
  css_selector : Option PyStr := none
  normalize_whitespace : Bool := true
  value_type : PyStr := "text".data
deriving DecidableEq

/-- `extract_value`. -/
def extract_value (site : SiteConfig) (text : PyStr) : PyStr :=
  if site.value_type = "stock_price".data then extract_stock_price_value text
  else if site.value_type = "price".data then
    match priceSearch text with
    | some (sym, num) => sym :: pyReplaceSpace num
    | none => text.take 160
  else if site.value_type = "version".data then
    match versionSearch text with
    | some m => m
    | none => text.take 160
  else text.take 160

/-- The numeric-token search of `parse_number_from_value`
(`re.search(r"([0-9][0-9,]*(?:\.[0-9]{2})?)", value)`). -/
def numSearch : PyStr → Option PyStr := searchAt (fun cs => (matchNumAt cs).map Prod.fst)

/-- Value of a string of ASCII digits, most significant first. -/
def natOfDigits (s : PyStr) : Nat := s.foldl (fun a c => 10 * a + (c.toNat - 48)) 0

/-- Exact rational value denoted by a comma-free numeric token (digits,
optionally `.` then digits); `float(number_str)` is the binary64 rounding of
this value (`pyFloatOfToken` below). -/
def decimalOfToken (s : PyStr) : ℚ :=
  match s.dropWhile (· != '.') with
  | '.' :: ds =>
    natOfDigits (s.takeWhile (· != '.')) + (natOfDigits ds : ℚ) / (10 ^ ds.length)
  | _ => natOfDigits (s.takeWhile (· != '.'))

/-- Number of binary digits of `n`, by fuel-bounded halving; the fuel 2200
covers everything the binary64 model scales (all below `2 ^ 2099`). -/
def bitLenAux : Nat → Nat → Nat
  | 0, _ => 0
  | fuel + 1, n => if n = 0 then 0 else bitLenAux fuel (n / 2) + 1

def bitLen (n : Nat) : Nat := bitLenAux 2200 n

/-- Round a rational to the nearest integer, ties to even: the IEEE-754
default rounding, and also what `float.__format__` applies to the printed
decimals. -/
def rhe (q : ℚ) : ℤ :=
  if q - ⌊q⌋ < 1 / 2 then ⌊q⌋
  else if 1 / 2 < q - ⌊q⌋ then ⌊q⌋ + 1
  else if ⌊q⌋ % 2 = 0 then ⌊q⌋ else ⌊q⌋ + 1

/-- Binary exponent of a positive rational (`2 ^ qexp q ≤ q < 2 ^ (qexp q + 1)`
for `q ≥ 2 ^ (-1022)`), clamped below at the binary64 subnormal threshold. -/
def qexp (q : ℚ) : ℤ := max ((bitLen (⌊q * 2 ^ 1074⌋).toNat : ℤ) - 1075) (-1022)

/-- Round a positive rational to binary64 (round to nearest, ties to even):
`none` is overflow to infinity, at the IEEE threshold `2^1024 - 2^970`;
otherwise `rhe` of the value scaled to its 53-bit quantum `2^(qexp q - 52)`,
which also covers the subnormal range via the clamp in `qexp`. -/
def roundPos (q : ℚ) : Option ℚ :=
  if 2 ^ 1024 - 2 ^ 970 ≤ q then none
  else some ((rhe (q * 2 ^ (52 - qexp q)) : ℚ) * 2 ^ (qexp q - 52))

/-- A CPython `float`: a finite binary64 carried as its exact rational value,
a signed infinity, or a NaN.  A negative zero cannot arise here (parsed
tokens are unsigned and `x - x` is `+0.0` in round-to-nearest), so the zero
is a single value. -/
inductive PyFloat where
  | finite (q : ℚ)
  | inf (neg : Bool)
  | nan
deriving DecidableEq

/-- `float(token)` for an unsigned numeric token: the correctly rounded
binary64 of the token's exact decimal value; overflow gives `+inf` (CPython
`float(str)` overflows silently to infinity). -/
def pyFloatOfToken (s : PyStr) : PyFloat :=
  if decimalOfToken s = 0 then .finite 0
  else
    match roundPos (decimalOfToken s) with
    | some q => .finite q
    | none => .inf false

/-- IEEE-754 binary64 subtraction, round to nearest, ties to even. -/
def pySub : PyFloat → PyFloat → PyFloat
  | .nan, _ => .nan
  | .finite _, .nan => .nan
  | .inf _, .nan => .nan
  | .finite a, .finite b =>
    if a = b then .finite 0
    else if b < a then
      match roundPos (a - b) with
      | some q => .finite q
      | none => .inf false
    else
      match roundPos (b - a) with
      | some q => .finite (-q)
      | none => .inf true
  | .finite _, .inf neg => .inf (!neg)
  | .inf neg, .finite _ => .inf neg
  | .inf n1, .inf n2 => if n1 = n2 then .nan else .inf n1

/-- `x > 0` on floats (`False` for NaN). -/
def pyPos : PyFloat → Bool
  | .finite q => decide (0 < q)
  | .inf neg => !neg
  | .nan => false

/-- `x < 0` on floats (`False` for NaN). -/
def pyNeg : PyFloat → Bool
  | .finite q => decide (q < 0)
  | .inf neg => neg
  | .nan => false

/-- `parse_number_from_value`: first numeric token, commas stripped
(`.replace(",", "")`), then `float`; `None` when no token occurs.  (The
`float` call never raises on a matched token — overflow silently gives
infinity — so the `except ValueError` branch is unreachable.) -/
def parse_number_from_value (value : PyStr) : Option PyFloat :=
  (numSearch value).map fun tok => pyFloatOfToken (pyReplaceComma tok)

/-- The three arrow strings of `describe_difference`, exactly the (mojibake)
code points of the source file. -/
def arrowUp : PyStr := ['â', '–', '²']

def arrowDown : PyStr := ['â', '–', '¼']

def arrowFlat : PyStr := ['â', '–', '¶']

def digitChar (n : Nat) : Char := Char.ofNat (48 + n)

/-- Decimal rendering of a natural number, most significant digit first. -/
def natDec (n : Nat) : PyStr :=
  if _h : n < 10 then [digitChar n]
  else natDec (n / 10) ++ [digitChar (n % 10)]
decreasing_by exact Nat.div_lt_self (by omega) (by omega)

/-- `f"{x:+.2f}"`: the sign (`+` for nonnegative, so `-0.00` only when the
double itself is negative), then the value rounded half-to-even to
hundredths; infinities and NaN print as `+inf`, `-inf` and `+nan`, exactly
as `float.__format__` prints them. -/
def formatPlus2f : PyFloat → PyStr
  | .finite q =>
    (if q < 0 then '-' else '+') ::
      natDec ((rhe (q * 100)).natAbs / 100) ++
      '.' :: [digitChar ((rhe (q * 100)).natAbs / 10 % 10),
        digitChar ((rhe (q * 100)).natAbs % 10)]
  | .inf neg => (if neg then '-' else '+') :: "inf".data
  | .nan => '+' :: "nan".data

/-- `describe_difference`: `diff = new_num - old_num` in binary64, then the
arrow by the sign tests `diff > 0` / `diff < 0` (both false for NaN), then
`f"{diff:+.2f}"`. -/
def describe_difference (old_value new_value : PyStr) : PyStr :=
  match parse_number_from_value old_value, parse_number_from_value new_value with
  | some old_num, some new_num =>
    (if pyPos (pySub new_num old_num) then arrowUp
      else if pyNeg (pySub new_num old_num) then arrowDown else arrowFlat) ++
      ' ' :: formatPlus2f (pySub new_num old_num)
  | _, _ => []

/-- One raw record of the `SITES` list: a dict in which each of these keys may
be absent. -/
structure RawSite where
  id : Option PyStr := none
  url : Option PyStr := none
  description : Option PyStr := none
  css_selector : Option PyStr := none
  normalize_whitespace : Option Bool := none
  value_type : Option PyStr := none

/-- `to_site_configs`: build one `SiteConfig` per entry having both `id` and
`url`; the `KeyError` on a missing required key is caught and skips just that
entry (the printed `[WARN]` diagnostic is I/O and is not modelled). -/
def to_site_configs : List RawSite → List SiteConfig
  | [] => []
  | e :: rest =>
    match e.id, e.url with
    | some i, some u =>
      ⟨i, u, e.description.getD i, e.css_selector,
        e.normalize_whitespace.getD true, e.value_type.getD "text".data⟩ ::
        to_site_configs rest
    | _, _ => to_site_configs rest

/-
SHA-256 (`hashlib.sha256(...).hexdigest()`), on natural numbers reduced
modulo 2^32 at every step.
-/

/-- UTF-8 encoding of one code point (`str.encode("utf-8")`;
`errors="ignore"` never drops anything since every `Char` is a valid Unicode
scalar value). -/
def utf8EncodeChar (c : Char) : List Nat :=
  let n := c.toNat
  if n < 0x80 then [n]
  else if n < 0x800 then [0xc0 ||| (n >>> 6), 0x80 ||| (n &&& 0x3f)]
  else if n < 0x10000 then
    [0xe0 ||| (n >>> 12), 0x80 ||| ((n >>> 6) &&& 0x3f), 0x80 ||| (n &&& 0x3f)]
  else
    [0xf0 ||| (n >>> 18), 0x80 ||| ((n >>> 12) &&& 0x3f),
     0x80 ||| ((n >>> 6) &&& 0x3f), 0x80 ||| (n &&& 0x3f)]

def utf8Encode (s : PyStr) : List Nat := (s.map utf8EncodeChar).flatten

def w32 (x : Nat) : Nat := x % 2 ^ 32

def rotr (n x : Nat) : Nat := w32 ((x >>> n) ||| (x <<< (32 - n)))

def sha256K : List Nat :=
  [1116352408, 1899447441, 3049323471, 3921009573, 961987163, 1508970993,
   2453635748, 2870763221, 3624381080, 310598401, 607225278, 1426881987,
   1925078388, 2162078206, 2614888103, 3248222580, 3835390401, 4022224774,
   264347078, 604807628, 770255983, 1249150122, 1555081692, 1996064986,
   2554220882, 2821834349, 2952996808, 3210313671, 3336571891, 3584528711,
   113926993, 338241895, 666307205, 773529912, 1294757372, 1396182291,
   1695183700, 1986661051, 2177026350, 2456956037, 2730485921, 2820302411,
   3259730800, 3345764771, 3516065817, 3600352804, 4094571909, 275423344,
   430227734, 506948616, 659060556, 883997877, 958139571, 1322822218,
   1537002063, 1747873779, 1955562222, 2024104815, 2227730452, 2361852424,
   2428436474, 2756734187, 3204031479, 3329325298]

def sha256H0 : List Nat :=
  [1779033703, 3144134277, 1013904242, 2773480762,
   1359893119, 2600822924, 528734635, 1541459225]

/-- Big-endian bytes of `n`, `k` bytes wide. -/
def beBytes (k n : Nat) : List Nat :=
  (List.range k).map fun i => (n >>> (8 * (k - 1 - i))) % 256

/-- Merkle–Damgård padding: `0x80`, zeros to 56 mod 64, 8-byte bit length. -/
def sha256Pad (msg : List Nat) : List Nat :=
  msg ++ 0x80 :: List.replicate ((120 - (msg.length + 1) % 64) % 64) 0 ++
    beBytes 8 (msg.length * 8)

def chunks64 (l : List Nat) : List (List Nat) :=
  if l = [] then [] else l.take 64 :: chunks64 (l.drop 64)
termination_by l.length
decreasing_by
  simp only [List.length_drop]
  cases l with
  | nil => simp_all
  | cons a t => simp; omega

/-- The 16 big-endian 32-bit words of a 64-byte block. -/
def wordsOf (block : List Nat) : List Nat :=
  (List.range 16).map fun i =>
    (block.getD (4 * i) 0) <<< 24 ||| (block.getD (4 * i + 1) 0) <<< 16 |||
      (block.getD (4 * i + 2) 0) <<< 8 ||| block.getD (4 * i + 3) 0

def smallSigma0 (x : Nat) : Nat := rotr 7 x ^^^ rotr 18 x ^^^ (x >>> 3)

def smallSigma1 (x : Nat) : Nat := rotr 17 x ^^^ rotr 19 x ^^^ (x >>> 10)

def bigSigma0 (x : Nat) : Nat := rotr 2 x ^^^ rotr 13 x ^^^ rotr 22 x

def bigSigma1 (x : Nat) : Nat := rotr 6 x ^^^ rotr 11 x ^^^ rotr 25 x

/-- Message schedule: extend 16 words to 64. -/
def sha256Schedule (w : List Nat) : List Nat :=
  (List.range 48).foldl
    (fun w i =>
      w ++ [w32 (smallSigma1 (w.getD (i + 14) 0) + w.getD (i + 9) 0 +
        smallSigma0 (w.getD (i + 1) 0) + w.getD i 0)])
    w

def sha256Round (st : List Nat) (kw : Nat × Nat) : List Nat :=
  match st with
  | [a, b, c, d, e, f, g, h] =>
    let ch := (e &&& f) ^^^ ((e ^^^ 0xffffffff) &&& g)
    let maj := (a &&& b) ^^^ (a &&& c) ^^^ (b &&& c)
    let t1 := w32 (h + bigSigma1 e + ch + kw.1 + kw.2)
    let t2 := w32 (bigSigma0 a + maj)
    [w32 (t1 + t2), a, b, c, w32 (d + t1), e, f, g]
  | _ => st

def sha256Block (h : List Nat) (block : List Nat) : List Nat :=
  let st := (sha256K.zip (sha256Schedule (wordsOf block))).foldl sha256Round h
  (h.zip st).map fun p => w32 (p.1 + p.2)

def sha256Bytes (msg : List Nat) : List Nat :=
  (chunks64 (sha256Pad msg)).foldl sha256Block sha256H0

def hexDigitChar (n : Nat) : Char := if n < 10 then Char.ofNat (48 + n) else Char.ofNat (87 + n)

/-- Lower-case hex of one 32-bit word. -/
def hex8 (w : Nat) : PyStr := (List.range 8).map fun i => hexDigitChar (w >>> (4 * (7 - i)) % 16)

/-- `compute_hash`: `hashlib.sha256(text.encode("utf-8", errors="ignore")).hexdigest()`. -/
def compute_hash (text : PyStr) : PyStr := ((sha256Bytes (utf8Encode text)).map hex8).flatten

/-
The change ledger: the persisted state dict and the observe transition of the
`check_sites` loop.
-/

/-- One persisted record `{"hash": ..., "value": ...}`. -/
structure LedgerEntry where
  hash : PyStr
  value : PyStr
deriving DecidableEq

/-- The state dict in insertion order, as `load_state`/`check_sites` hold it.
A Python dict never repeats a key; operations below have dict semantics. -/
abbrev Ledger := List (PyStr × LedgerEntry)

/-- `state.get(site_id)`. -/
def dictGet (st : Ledger) (k : PyStr) : Option LedgerEntry :=
  match st with
  | [] => none
  | (k', e) :: rest => if k' = k then some e else dictGet rest k

/-- `state[site_id] = entry`: overwrite in place when the key exists, else
append (dict insertion order). -/
def dictSet (st : Ledger) (k : PyStr) (e : LedgerEntry) : Ledger :=
  match st with
  | [] => [(k, e)]
  | (k', e') :: rest => if k' = k then (k, e) :: rest else (k', e') :: dictSet rest k e

/-- The observe outcome of one site in a pass. -/
inductive Transition where
  | Baseline (value : PyStr)
  | Changed (oldValue newValue : PyStr)
  | Unchanged (value : PyStr)
deriving DecidableEq

/-- The ledger "observe" step inlined in `check_sites` (lines 388-405): hash
the extracted value; no entry -> insert and Baseline; different hash ->
overwrite the entry's hash and value in place and Changed; same hash ->
Unchanged with no mutation. -/
def observeStep (state : Ledger) (siteId value : PyStr) : Ledger × Transition :=
  let newHash := compute_hash value
  match dictGet state siteId with
  | none => (dictSet state siteId ⟨newHash, value⟩, .Baseline value)
  | some prev =>
    if newHash ≠ prev.hash then
      (dictSet state siteId ⟨newHash, value⟩, .Changed prev.value value)
    else (state, .Unchanged value)

def isChangedT : Transition → Bool
  | .Changed _ _ => true
  | _ => false

/-- The `check_sites` loop over the state, abstracted over the observations
it performs: one `(site id, extracted value)` pair per site whose fetch
succeeded (a failed fetch `continue`s before touching the state, and alerting
is external I/O).  Returns the final state that `save_state` persists and the
`any_changes` flag of the end-of-pass summary. -/
def runPassAux (st : Ledger) (anyChanges : Bool) : List (PyStr × PyStr) → Ledger × Bool
  | [] => (st, anyChanges)
  | (i, v) :: rest =>
    let r := observeStep st i v
    runPassAux r.1 (anyChanges || isChangedT r.2) rest

def runPass (st : Ledger) (obs : List (PyStr × PyStr)) : Ledger × Bool :=
  runPassAux st false obs

/-- The sequence of transitions a pass performs. -/
def passTrace (st : Ledger) : List (PyStr × PyStr) → List Transition
  | [] => []
  | (i, v) :: rest => (observeStep st i v).2 :: passTrace (observeStep st i v).1 rest

/-
Persistence: `save_state` is `json.dump(data, f, indent=2, sort_keys=True)`,
`load_state` is `json.load` specialized to the `Dict[str, Dict[str, str]]`
documents the program itself writes (`none` on anything else; the source
turns any read failure into the empty dict).
-/

/-- Python string comparison: code-point lexicographic. -/
def strLt : PyStr → PyStr → Bool
  | [], [] => false
  | [], _ :: _ => true
  | _ :: _, [] => false
  | a :: as_, b :: bs =>
    if a.toNat < b.toNat then true
    else if a.toNat = b.toNat then strLt as_ bs
    else false

def strLe (a b : PyStr) : Bool := !strLt b a

/-- Sort order of `sort_keys=True`: ascending by key. -/
def keyLe (p q : PyStr × LedgerEntry) : Prop := strLe p.1 q.1 = true

instance : DecidableRel keyLe := fun p q => instDecidableEqBool (strLe p.1 q.1) true

/-- `sorted(...)` of the encoder (stable, ascending by key). -/
def sortByKey (st : Ledger) : Ledger := st.insertionSort keyLe

/-- Hex rendering of `n` as four lower-case digits, as `json` writes
`\uXXXX` escapes. -/
def toHex4 (n : Nat) : PyStr :=
  [hexDigitChar (n / 4096 % 16), hexDigitChar (n / 256 % 16),
   hexDigitChar (n / 16 % 16), hexDigitChar (n % 16)]

/-- `json.dump` escaping of one character, with the default
`ensure_ascii=True`: two-character escapes for `"`, `\` and the common
controls, printable ASCII kept, everything else `\uXXXX` (surrogate pairs
above U+FFFF). -/
def escapeChar (c : Char) : PyStr :=
  if c = '"' then ['\\', '"']
  else if c = '\\' then ['\\', '\\']
  else if c = '\x08' then ['\\', 'b']
  else if c = '\x0c' then ['\\', 'f']
  else if c = '\n' then ['\\', 'n']
  else if c = '\r' then ['\\', 'r']
  else if c = '\t' then ['\\', 't']
  else if 0x20 ≤ c.toNat ∧ c.toNat ≤ 0x7e then [c]
  else if c.toNat < 0x10000 then '\\' :: 'u' :: toHex4 c.toNat
  else
    '\\' :: 'u' :: toHex4 (0xd800 + (c.toNat - 0x10000) / 0x400) ++
      '\\' :: 'u' :: toHex4 (0xdc00 + (c.toNat - 0x10000) % 0x400)

def jsonEscape (s : PyStr) : PyStr := (s.map escapeChar).flatten

def renderStr (s : PyStr) : PyStr := '"' :: jsonEscape s ++ ['"']

/-- One serialized entry, in the `indent=2` layout: keys at indent 4, in
`sort_keys` order (`"hash" < "value"`), closing brace at indent 2. -/
def renderEntry (e : LedgerEntry) : PyStr :=
  '\x7b' :: '\n' :: ' ' :: ' ' :: ' ' :: ' ' ::
    (renderStr "hash".data ++ ':' :: ' ' ::
      (renderStr e.hash ++ ',' :: '\n' :: ' ' :: ' ' :: ' ' :: ' ' ::
        (renderStr "value".data ++ ':' :: ' ' ::
          (renderStr e.value ++ '\n' :: ' ' :: ' ' :: ['\x7d']))))

/-- The top-level items, separated by `,\n` plus the 2-space indent. -/
def renderItems : Ledger → PyStr
  | [] => []
  | [(k, e)] => renderStr k ++ ':' :: ' ' :: renderEntry e
  | (k, e) :: rest =>
    renderStr k ++ ':' :: ' ' ::
      (renderEntry e ++ ',' :: '\n' :: ' ' :: ' ' :: renderItems rest)

/-- `save_state` as the document text it writes:
`json.dump(data, f, indent=2, sort_keys=True)`. -/
def save_state (st : Ledger) : PyStr :=
  match sortByKey st with
  | [] => ['\x7b', '\x7d']
  | items => '\x7b' :: '\n' :: ' ' :: ' ' :: (renderItems items ++ ['\n', '\x7d'])

def isJsonWs (c : Char) : Bool := c = ' ' || c = '\t' || c = '\n' || c = '\r'

def skipWs (cs : PyStr) : PyStr := cs.dropWhile isJsonWs

def expectChar (c : Char) : PyStr → Option PyStr
  | [] => none
  | c' :: rest => if c' = c then some rest else none

def hexVal (c : Char) : Option Nat :=
  if 48 ≤ c.toNat ∧ c.toNat ≤ 57 then some (c.toNat - 48)
  else if 97 ≤ c.toNat ∧ c.toNat ≤ 102 then some (c.toNat - 87)
  else if 65 ≤ c.toNat ∧ c.toNat ≤ 70 then some (c.toNat - 55)
  else none

def parseHex4 : PyStr → Option (Nat × PyStr)
  | a :: b :: c :: d :: rest =>
    (hexVal a).bind fun va => (hexVal b).bind fun vb =>
    (hexVal c).bind fun vc => (hexVal d).map fun vd =>
      (((va * 16 + vb) * 16 + vc) * 16 + vd, rest)
  | _ => none

/-- One JSON string escape after the backslash.  A high surrogate must be
followed by a low one (a lone surrogate would decode to a Python string that
`List Char` cannot represent, and `save_state` never writes one). -/
def parseEscape : PyStr → Option (Char × PyStr)
  | [] => none
  | c :: rest =>
    if c = '"' then some ('"', rest)
    else if c = '\\' then some ('\\', rest)
    else if c = '/' then some ('/', rest)
    else if c = 'b' then some ('\x08', rest)
    else if c = 'f' then some ('\x0c', rest)
    else if c = 'n' then some ('\n', rest)
    else if c = 'r' then some ('\r', rest)
    else if c = 't' then some ('\t', rest)
    else if c = 'u' then
      match parseHex4 rest with
      | none => none
      | some (n, rest1) =>
        if 0xd800 ≤ n ∧ n ≤ 0xdbff then
          match rest1 with
          | c1 :: c2 :: rest2 =>
            if c1 = '\\' ∧ c2 = 'u' then
              match parseHex4 rest2 with
              | some (m, rest3) =>
                if 0xdc00 ≤ m ∧ m ≤ 0xdfff then
                  some (Char.ofNat (0x10000 + (n - 0xd800) * 0x400 + (m - 0xdc00)), rest3)
                else none
              | none => none
            else none
          | _ => none
        else if 0xdc00 ≤ n ∧ n ≤ 0xdfff then none
        else some (Char.ofNat n, rest1)
    else none

/-- Body of a JSON string (opening quote already consumed), strict mode:
raw control characters are rejected.  The fuel argument only bounds the
recursion; any fuel above the input length is enough. -/
def parseStrAux : Nat → PyStr → Option (PyStr × PyStr)
  | 0, _ => none
  | _ + 1, [] => none
  | fuel + 1, c :: rest =>
    if c = '"' then some ([], rest)
    else if c = '\\' then
      match parseEscape rest with
      | none => none
      | some (ch, rest1) =>
        match parseStrAux fuel rest1 with
        | none => none
        | some (s, rest2) => some (ch :: s, rest2)
    else if c.toNat < 0x20 then none
    else
      match parseStrAux fuel rest with
      | none => none
      | some (s, rest2) => some (c :: s, rest2)

def parseJString (cs : PyStr) : Option (PyStr × PyStr) :=
  match cs with
  | [] => none
  | c :: rest => if c = '"' then parseStrAux (rest.length + 1) rest else none

/-- `"key": "value"` (string member of the inner object). -/
def parseStrMember (cs : PyStr) : Option ((PyStr × PyStr) × PyStr) :=
  (parseJString cs).bind fun kr =>
  (expectChar ':' (skipWs kr.2)).bind fun r3 =>
  (parseJString (skipWs r3)).map fun vr => ((kr.1, vr.1), vr.2)

def parseMembers : Nat → PyStr → Option (List (PyStr × PyStr) × PyStr)
  | 0, _ => none
  | fuel + 1, cs =>
    (parseStrMember cs).bind fun mr =>
    match skipWs mr.2 with
    | [] => none
    | c :: r2 =>
      if c = ',' then (parseMembers fuel (skipWs r2)).map fun pr => (mr.1 :: pr.1, pr.2)
      else if c = '\x7d' then some ([mr.1], r2)
      else none

/-- An object all of whose values are strings. -/
def parseStrObj (cs : PyStr) : Option (List (PyStr × PyStr) × PyStr) :=
  (expectChar '\x7b' cs).bind fun r1 =>
  match skipWs r1 with
  | [] => none
  | c :: r2 =>
    if c = '\x7d' then some ([], r2)
    else parseMembers ((c :: r2).length + 1) (c :: r2)

/-- Read an inner object as a ledger record; the two spellings a
`Dict[str, str]` with exactly the keys `hash` and `value` can serialize to. -/
def entryOfPairs : List (PyStr × PyStr) → Option LedgerEntry
  | [(k1, a), (k2, b)] =>
    if k1 = "hash".data ∧ k2 = "value".data then some ⟨a, b⟩
    else if k1 = "value".data ∧ k2 = "hash".data then some ⟨b, a⟩
    else none
  | _ => none

def parseTopMember (cs : PyStr) : Option ((PyStr × LedgerEntry) × PyStr) :=
  (parseJString cs).bind fun kr =>
  (expectChar ':' (skipWs kr.2)).bind fun r3 =>
  (parseStrObj (skipWs r3)).bind fun pr =>
  (entryOfPairs pr.1).map fun e => ((kr.1, e), pr.2)

def parseTopMembers : Nat → PyStr → Option (Ledger × PyStr)
  | 0, _ => none
  | fuel + 1, cs =>
    (parseTopMember cs).bind fun mr =>
    match skipWs mr.2 with
    | [] => none
    | c :: r2 =>
      if c = ',' then (parseTopMembers fuel (skipWs r2)).map fun pr => (mr.1 :: pr.1, pr.2)
      else if c = '\x7d' then some ([mr.1], r2)
      else none

/-- `json.load` of a state document, specialized to the
`Dict[str, Dict[str, str]]` shape `save_state` writes; anything else is a
parse failure. -/
def parseStateDoc (cs : PyStr) : Option Ledger :=
  (match skipWs cs with
   | [] => none
   | c :: r1 =>
     if c = '\x7b' then
       match skipWs r1 with
       | [] => none
       | c2 :: r2 =>
         if c2 = '\x7d' then some (([] : Ledger), r2)
         else parseTopMembers ((c2 :: r2).length + 1) (c2 :: r2)
     else none).bind fun pr =>
  if skipWs pr.2 = [] then some pr.1 else none

/-- `load_state`: a missing file or any read/parse failure degrades to the
empty dict (the source prints a warning and returns `{}`). -/
def load_state (cs : PyStr) : Ledger := (parseStateDoc cs).getD []

/-
Claim-side characterizations (used only in theorem statements, to say what a
match is without restating the matcher).
-/

/-- What `[0-9][0-9,]*(?:\.[0-9]{2})?` denotes: a digit, then digits or
commas, then optionally a dot and exactly two digits. -/
def NumTokenGrammar (s : PyStr) : Prop :=
  ∃ c body tail, s = c :: body ++ tail ∧ isDigit c = true ∧
    body.all isDigitOrComma = true ∧
    (tail = [] ∨ ∃ d1 d2, tail = ['.', d1, d2] ∧ isDigit d1 = true ∧ isDigit d2 = true)

/-- What `Python\s+3\.\d+\.\d+` denotes. -/
def VersionTokenGrammar (s : PyStr) : Prop :=
  ∃ sp d1 d2, s = "Python".data ++ sp ++ "3.".data ++ d1 ++ '.' :: d2 ∧
    sp ≠ [] ∧ sp.all isPySpace = true ∧
    d1 ≠ [] ∧ d1.all isPyDigit = true ∧ d2 ≠ [] ∧ d2.all isPyDigit = true

/-- Value denoted by a `±i.dd` fixed-two-decimals rendering, for reading a
formatted delta back. -/
def ratOfFixed2 : PyStr → ℚ
  | [] => 0
  | sign :: rest =>
    if sign = '-' then
      -(natOfDigits (rest.takeWhile (· != '.')) +
        (natOfDigits ((rest.dropWhile (· != '.')).drop 1) : ℚ) / 100)
    else
      natOfDigits (rest.takeWhile (· != '.')) +
        (natOfDigits ((rest.dropWhile (· != '.')).drop 1) : ℚ) / 100

/-
Helper lemmas: the state dict and the pass.
-/

theorem dictGet_set_self (st : Ledger) (k : PyStr) (e : LedgerEntry) :
    dictGet (dictSet st k e) k = some e := by
  induction st with
  | nil => simp [dictGet, dictSet]
  | cons p rest ih =>
    obtain ⟨k', e'⟩ := p
    by_cases h : k' = k
    · simp [dictSet, h, dictGet]
    · simp [dictSet, h, dictGet, ih]

theorem dictGet_set_ne (st : Ledger) {k j : PyStr} (e : LedgerEntry) (h : j ≠ k) :
    dictGet (dictSet st k e) j = dictGet st j := by
  have hkj : ¬ k = j := fun hh => h hh.symm
  induction st with
  | nil => simp [dictGet, dictSet, hkj]
  | cons p rest ih =>
    obtain ⟨k', e'⟩ := p
    by_cases hk : k' = k
    · subst hk
      simp [dictSet, dictGet, hkj]
    · simp [dictSet, hk, dictGet, ih]

theorem observeStep_of_none {st : Ledger} {i v : PyStr} (h : dictGet st i = none) :
    observeStep st i v = (dictSet st i ⟨compute_hash v, v⟩, .Baseline v) := by
  simp [observeStep, h]

theorem observeStep_of_changed {st : Ledger} {i v : PyStr} {e : LedgerEntry}
    (h : dictGet st i = some e) (hne : compute_hash v ≠ e.hash) :
    observeStep st i v = (dictSet st i ⟨compute_hash v, v⟩, .Changed e.value v) := by
  simp [observeStep, h, hne]

theorem observeStep_of_unchanged {st : Ledger} {i v : PyStr} {e : LedgerEntry}
    (h : dictGet st i = some e) (heq : compute_hash v = e.hash) :
    observeStep st i v = (st, .Unchanged v) := by
  simp [observeStep, h, heq]

theorem observeStep_state_cases (st : Ledger) (i v : PyStr) :
    (observeStep st i v).1 = st ∨
      (observeStep st i v).1 = dictSet st i ⟨compute_hash v, v⟩ := by
  unfold observeStep
  cases h : dictGet st i with
  | none => simp
  | some e =>
    by_cases hne : compute_hash v ≠ e.hash <;> simp [hne]

theorem observe_changed_iff (st : Ledger) (i v : PyStr) :
    isChangedT (observeStep st i v).2 = true ↔
      ∃ e, dictGet st i = some e ∧ compute_hash v ≠ e.hash := by
  unfold observeStep
  cases h : dictGet st i with
  | none => simp [isChangedT]
  | some e =>
    by_cases hne : compute_hash v ≠ e.hash <;> simp [hne, isChangedT]

theorem runPassAux_flag (st : Ledger) (b : Bool) (obs : List (PyStr × PyStr)) :
    runPassAux st b obs = ((runPass st obs).1, b || (runPass st obs).2) := by
  induction obs generalizing st b with
  | nil => simp [runPassAux, runPass]
  | cons p rest ih =>
    obtain ⟨i, v⟩ := p
    show runPassAux _ _ _ = _
    rw [runPassAux, ih]
    conv_rhs => rw [runPass, runPassAux, ih]
    simp [Bool.or_assoc]

theorem runPass_cons (st : Ledger) (i v : PyStr) (obs : List (PyStr × PyStr)) :
    runPass st ((i, v) :: obs) =
      ((runPass (observeStep st i v).1 obs).1,
        isChangedT (observeStep st i v).2 || (runPass (observeStep st i v).1 obs).2) := by
  rw [runPass, runPassAux, runPassAux_flag]
  simp

theorem runPass_cons_fst (st : Ledger) (i v : PyStr) (obs : List (PyStr × PyStr)) :
    (runPass st ((i, v) :: obs)).1 = (runPass (observeStep st i v).1 obs).1 := by
  rw [runPass_cons]

theorem runPass_cons_snd (st : Ledger) (i v : PyStr) (obs : List (PyStr × PyStr)) :
    (runPass st ((i, v) :: obs)).2 =
      (isChangedT (observeStep st i v).2 || (runPass (observeStep st i v).1 obs).2) := by
  rw [runPass_cons]

theorem runPass_preserves_presence (obs : List (PyStr × PyStr)) :
    ∀ (st : Ledger) (i : PyStr), (dictGet st i).isSome = true →
      (dictGet (runPass st obs).1 i).isSome = true := by
  induction obs with
  | nil => intro st i h; simpa [runPass, runPassAux] using h
  | cons p rest ih =>
    intro st i h
    obtain ⟨j, v⟩ := p
    rw [runPass_cons_fst]
    apply ih
    rcases observeStep_state_cases st j v with hc | hc
    · rw [hc]; exact h
    · rw [hc]
      by_cases hji : j = i
      · subst hji
        simp [dictGet_set_self]
      · rw [dictGet_set_ne _ _ (fun hh => hji hh.symm)]
        exact h

theorem runPass_frame (obs : List (PyStr × PyStr)) :
    ∀ (st : Ledger) (i : PyStr) (e : LedgerEntry), dictGet st i = some e →
      (∀ p ∈ obs, p.1 = i → compute_hash p.2 = e.hash) →
      dictGet (runPass st obs).1 i = some e := by
  induction obs with
  | nil => intro st i e he _; simpa [runPass, runPassAux] using he
  | cons p rest ih =>
    intro st i e he hall
    obtain ⟨j, v⟩ := p
    rw [runPass_cons_fst]
    by_cases hj : j = i
    · subst hj
      have heq : compute_hash v = e.hash := hall (j, v) (List.mem_cons_self _ _) rfl
      have hst : (observeStep st j v).1 = st := by
        rw [observeStep_of_unchanged he heq]
      rw [hst]
      exact ih st j e he (fun q hq hqi => hall q (List.mem_cons_of_mem _ hq) hqi)
    · have hst : dictGet (observeStep st j v).1 i = some e := by
        rcases observeStep_state_cases st j v with hc | hc
        · rw [hc]; exact he
        · rw [hc, dictGet_set_ne _ _ (fun hh => hj hh.symm)]
          exact he
      exact ih _ i e hst (fun q hq hqi => hall q (List.mem_cons_of_mem _ hq) hqi)

theorem passTrace_all_baseline_flag (st : Ledger) (obs : List (PyStr × PyStr))
    (h : ∀ t ∈ passTrace st obs, ∃ w, t = Transition.Baseline w) :
    (runPass st obs).2 = false := by
  induction obs generalizing st with
  | nil => simp [runPass, runPassAux]
  | cons p rest ih =>
    obtain ⟨i, v⟩ := p
    rw [runPass_cons_snd]
    have hmem : (observeStep st i v).2 ∈ passTrace st ((i, v) :: rest) := by
      rw [passTrace]
      exact List.mem_cons_self _ _
    obtain ⟨w, hw⟩ := h _ hmem
    have h2 : ∀ t ∈ passTrace (observeStep st i v).1 rest, ∃ w, t = Transition.Baseline w := by
      intro t ht
      refine h t ?_
      rw [passTrace]
      exact List.mem_cons_of_mem _ ht
    simp [ih _ h2, hw, isChangedT]

/-- **C1** — For every site id and value string, the observe step computes the
hash of the new value; with no entry for the id it inserts `{value, hash}` and
reports Baseline; with a differing hash it overwrites that entry's value and
hash in place (other ids untouched) and reports Changed; otherwise it reports
Unchanged and performs no mutation.  Observing the same id with the same value
twice on the empty ledger yields Baseline then Unchanged. -/
theorem C1_observe_transitions (st : Ledger) (i v : PyStr) :
    (dictGet st i = none →
      (observeStep st i v).2 = .Baseline v ∧
      dictGet (observeStep st i v).1 i = some ⟨compute_hash v, v⟩ ∧
      ∀ j, j ≠ i → dictGet (observeStep st i v).1 j = dictGet st j) ∧
    (∀ e, dictGet st i = some e → compute_hash v ≠ e.hash →
      (observeStep st i v).2 = .Changed e.value v ∧
      dictGet (observeStep st i v).1 i = some ⟨compute_hash v, v⟩ ∧
      ∀ j, j ≠ i → dictGet (observeStep st i v).1 j = dictGet st j) ∧
    (∀ e, dictGet st i = some e → compute_hash v = e.hash →
      (observeStep st i v).2 = .Unchanged v ∧ (observeStep st i v).1 = st) ∧
    ((observeStep ([] : Ledger) i v).2 = .Baseline v ∧
      (observeStep (observeStep ([] : Ledger) i v).1 i v).2 = .Unchanged v) := by
  refine ⟨fun h => ?_, fun e h hne => ?_, fun e h heq => ?_, ?_, ?_⟩
  · rw [observeStep_of_none h]
    exact ⟨rfl, dictGet_set_self .., fun j hj => dictGet_set_ne _ _ hj⟩
  · rw [observeStep_of_changed h hne]
    exact ⟨rfl, dictGet_set_self .., fun j hj => dictGet_set_ne _ _ hj⟩
  · rw [observeStep_of_unchanged h heq]
    exact ⟨rfl, rfl⟩
  · rw [observeStep_of_none (show dictGet ([] : Ledger) i = none from rfl)]
  · have h1 : (observeStep ([] : Ledger) i v).1 = [(i, ⟨compute_hash v, v⟩)] := by
      rw [observeStep_of_none (show dictGet ([] : Ledger) i = none from rfl)]
      rfl
    rw [h1, observeStep_of_unchanged (e := ⟨compute_hash v, v⟩) (by simp [dictGet]) rfl]

/-- Closed instance of `C1_observe_transitions`, discharging each hypothesis
at the empty ledger, id `"a"`, value `"x"`. -/
theorem C1_witness :
    dictGet ([] : Ledger) "a".data = none ∧
    ((observeStep ([] : Ledger) "a".data "x".data).2 = .Baseline "x".data ∧
      dictGet (observeStep ([] : Ledger) "a".data "x".data).1 "a".data =
        some ⟨compute_hash "x".data, "x".data⟩ ∧
      ∀ j, j ≠ "a".data →
        dictGet (observeStep ([] : Ledger) "a".data "x".data).1 j =
          dictGet ([] : Ledger) j) :=
  ⟨rfl, (C1_observe_transitions [] "a".data "x".data).1 rfl⟩

/-- **C9** — A pass never deletes a ledger entry: every id present in the
loaded state is still present in the final state, and its entry is unchanged
unless the pass observed that id with a value whose hash differs from the
stored hash; ids not observed at all (in particular, sites absent from the
configuration) keep their entry verbatim. -/
theorem C9_no_delete (st : Ledger) (obs : List (PyStr × PyStr)) (i : PyStr)
    (e : LedgerEntry) (he : dictGet st i = some e) :
    (∃ e2, dictGet (runPass st obs).1 i = some e2) ∧
    ((∀ p ∈ obs, p.1 = i → compute_hash p.2 = e.hash) →
      dictGet (runPass st obs).1 i = some e) :=
  ⟨Option.isSome_iff_exists.mp
      (runPass_preserves_presence obs st i (by simp [he])),
    runPass_frame obs st i e he⟩

/-- Closed instance of `C9_no_delete`: a pass that observes only the new site
`"b"` preserves the pre-existing entry for `"a"` verbatim. -/
theorem C9_witness :
    dictGet [(("a".data : PyStr), (⟨"h".data, "v".data⟩ : LedgerEntry))] "a".data =
      some ⟨"h".data, "v".data⟩ ∧
    (∀ p ∈ [(("b".data : PyStr), ("w".data : PyStr))], p.1 = "a".data →
      compute_hash p.2 = "h".data) ∧
    dictGet (runPass [(("a".data : PyStr), (⟨"h".data, "v".data⟩ : LedgerEntry))]
        [(("b".data : PyStr), ("w".data : PyStr))]).1 "a".data =
      some ⟨"h".data, "v".data⟩ := by
  have hhyp : ∀ p ∈ [(("b".data : PyStr), ("w".data : PyStr))], p.1 = "a".data →
      compute_hash p.2 = "h".data := by
    intro p hp hpe
    simp only [List.mem_singleton] at hp
    rw [hp] at hpe
    simp at hpe
  exact ⟨rfl, hhyp,
    (C9_no_delete [(("a".data : PyStr), ⟨"h".data, "v".data⟩)]
      [(("b".data : PyStr), ("w".data : PyStr))] "a".data ⟨"h".data, "v".data⟩ rfl).2 hhyp⟩

/-- **C10** — The end-of-pass summary flag is true iff some step of the pass
observed a site that had a ledger entry at that moment with a different hash;
Baseline transitions never count, so a pass of baselines only reports no
changes. -/
theorem C10_summary (st : Ledger) (obs : List (PyStr × PyStr)) :
    ((runPass st obs).2 = true ↔
      ∃ k i v tail e, obs.drop k = (i, v) :: tail ∧
        dictGet (runPass st (obs.take k)).1 i = some e ∧
        compute_hash v ≠ e.hash) ∧
    ((∀ t ∈ passTrace st obs, ∃ w, t = Transition.Baseline w) →
      (runPass st obs).2 = false) := by
  refine ⟨?_, passTrace_all_baseline_flag st obs⟩
  induction obs generalizing st with
  | nil => simp [runPass, runPassAux]
  | cons p rest ih =>
    obtain ⟨j, v⟩ := p
    rw [runPass_cons_snd]
    constructor
    · intro h
      rcases Bool.or_eq_true_iff.mp h with hl | hr
      · obtain ⟨e, hge, hne⟩ := (observe_changed_iff st j v).mp hl
        exact ⟨0, j, v, rest, e, rfl, by simpa [runPass, runPassAux] using hge, hne⟩
      · obtain ⟨k, i, v', tail, e, hdrop, hget, hne⟩ := (ih _).mp hr
        refine ⟨k + 1, i, v', tail, e, by simpa using hdrop, ?_, hne⟩
        rw [List.take_succ_cons, runPass_cons_fst]
        exact hget
    · rintro ⟨k, i, v', tail, e, hdrop, hget, hne⟩
      cases k with
      | zero =>
        simp only [List.drop_zero] at hdrop
        injection hdrop with hhead htail
        injection hhead with hji hvv
        subst hji
        subst hvv
        apply Bool.or_eq_true_iff.mpr
        left
        exact (observe_changed_iff st j v).mpr
          ⟨e, by simpa [runPass, runPassAux] using hget, hne⟩
      | succ k =>
        apply Bool.or_eq_true_iff.mpr
        right
        refine (ih _).mpr ⟨k, i, v', tail, e, by simpa using hdrop, ?_, hne⟩
        rw [List.take_succ_cons, runPass_cons_fst] at hget
        exact hget

/-- Closed instance of `C10_summary`: a pass of two first-ever observations is
all Baseline and reports no changes. -/
theorem C10_witness :
    (∀ t ∈ passTrace ([] : Ledger)
        [(("a".data : PyStr), ("x".data : PyStr)), (("b".data : PyStr), ("y".data : PyStr))],
      ∃ w, t = Transition.Baseline w) ∧
    (runPass ([] : Ledger)
        [(("a".data : PyStr), ("x".data : PyStr)),
          (("b".data : PyStr), ("y".data : PyStr))]).2 = false := by
  have hb : ∀ t ∈ passTrace ([] : Ledger)
      [(("a".data : PyStr), ("x".data : PyStr)), (("b".data : PyStr), ("y".data : PyStr))],
      ∃ w, t = Transition.Baseline w := by
    intro t ht
    have htr : passTrace ([] : Ledger)
        [(("a".data : PyStr), ("x".data : PyStr)), (("b".data : PyStr), ("y".data : PyStr))] =
        [Transition.Baseline "x".data, Transition.Baseline "y".data] := rfl
    rw [htr] at ht
    simp only [List.mem_cons, List.not_mem_nil, or_false] at ht
    rcases ht with h | h
    · exact ⟨"x".data, h⟩
    · exact ⟨"y".data, h⟩
  exact ⟨hb, (C10_summary ([] : Ledger)
    [(("a".data : PyStr), ("x".data : PyStr)), (("b".data : PyStr), ("y".data : PyStr))]).2 hb⟩

/-- **C7** — Configuration parsing returns one `SiteConfig` per record having
both an id and a url, in input order, with defaults `description = id`,
`selector = none`, `normalizeWhitespace = true`, `valueKind = "text"`;
records missing id or url are excluded individually, and parsing is a total
function that never aborts on a malformed entry. -/
theorem C7_to_site_configs (entries : List RawSite) :
    to_site_configs entries =
      (entries.filter fun e => e.id.isSome && e.url.isSome).map (fun e =>
        ⟨e.id.getD [], e.url.getD [], e.description.getD (e.id.getD []),
          e.css_selector, e.normalize_whitespace.getD true,
          e.value_type.getD "text".data⟩) ∧
    (∀ i u, to_site_configs [⟨some i, some u, none, none, none, none⟩] =
      [⟨i, u, i, none, true, "text".data⟩]) := by
  refine ⟨?_, fun i u => rfl⟩
  induction entries with
  | nil => rfl
  | cons e rest ih =>
    cases hid : e.id with
    | none => simp [to_site_configs, hid, ih]
    | some i =>
      cases hurl : e.url with
      | none => simp [to_site_configs, hid, hurl, ih]
      | some u => simp [to_site_configs, hid, hurl, ih]

/-
Helper lemmas: the matchers.
-/

theorem searchAt_eq_some_iff {α : Type} (f : PyStr → Option α) (cs : PyStr) (a : α) :
    searchAt f cs = some a ↔
      ∃ k, k ≤ cs.length ∧ f (cs.drop k) = some a ∧ ∀ j < k, f (cs.drop j) = none := by
  induction cs with
  | nil =>
    rw [searchAt]
    constructor
    · intro h
      exact ⟨0, Nat.le_refl 0, by simpa using h, fun j hj => absurd hj (by omega)⟩
    · rintro ⟨k, hk, hf, _⟩
      simp only [List.length_nil, Nat.le_zero] at hk
      subst hk
      simpa using hf
  | cons c rest ih =>
    rw [searchAt]
    cases hf : f (c :: rest) with
    | some b =>
      constructor
      · intro h
        exact ⟨0, by omega, by simpa [hf] using h, fun j hj => absurd hj (by omega)⟩
      · rintro ⟨k, hk, hfk, hall⟩
        cases k with
        | zero => rw [List.drop_zero] at hfk; rw [hf] at hfk; exact hfk
        | succ k =>
          have h0 := hall 0 (by omega)
          rw [List.drop_zero] at h0
          rw [hf] at h0
          cases h0
    | none =>
      rw [ih]
      constructor
      · rintro ⟨k, hk, hfk, hall⟩
        refine ⟨k + 1, by simp; omega, by simpa [List.drop_succ_cons] using hfk, ?_⟩
        intro j hj
        cases j with
        | zero => simpa using hf
        | succ j =>
          rw [List.drop_succ_cons]
          exact hall j (by omega)
      · rintro ⟨k, hk, hfk, hall⟩
        cases k with
        | zero => rw [List.drop_zero, hf] at hfk; cases hfk
        | succ k =>
          refine ⟨k, by simp at hk; omega, by simpa [List.drop_succ_cons] using hfk, ?_⟩
          intro j hj
          have := hall (j + 1) (by omega)
          rwa [List.drop_succ_cons] at this

theorem matchLit_append {p cs r : PyStr} (h : matchLit p cs = some r) : cs = p ++ r := by
  induction p generalizing cs with
  | nil =>
    rw [matchLit] at h
    injection h with h
  | cons x ps ih =>
    cases cs with
    | nil => cases h
    | cons c cs' =>
      rw [matchLit] at h
      by_cases hcx : c = x
      · rw [if_pos hcx] at h
        subst hcx
        simpa using ih h
      · rw [if_neg hcx] at h
        cases h

theorem matchDigits1_append {cs d rest : PyStr} (h : matchDigits1 cs = some (d, rest)) :
    cs = d ++ rest ∧ d ≠ [] ∧ d.all isPyDigit = true := by
  cases cs with
  | nil => cases h
  | cons c cs' =>
    rw [matchDigits1] at h
    by_cases hc : isPyDigit c = true
    · rw [if_pos hc] at h
      injection h with h
      injection h with h1 h2
      subst h1
      subst h2
      refine ⟨by simp [List.takeWhile_append_dropWhile], by simp, ?_⟩
      simp [hc, List.all_takeWhile]
    · rw [if_neg hc] at h
      cases h

theorem matchNumAt_append {cs num rest : PyStr} (h : matchNumAt cs = some (num, rest)) :
    cs = num ++ rest ∧ NumTokenGrammar num := by
  cases cs with
  | nil => cases h
  | cons c cs' =>
    rw [matchNumAt] at h
    by_cases hc : isDigit c = true
    · rw [if_pos hc] at h
      have hsplit := List.takeWhile_append_dropWhile (p := isDigitOrComma) (l := cs')
      have hbody : (cs'.takeWhile isDigitOrComma).all isDigitOrComma = true :=
        List.all_takeWhile
      revert h hsplit hbody
      generalize cs'.takeWhile isDigitOrComma = A
      generalize cs'.dropWhile isDigitOrComma = B
      intro h hsplit hbody
      split at h
      · rename_i d1 d2 rest2
        split at h
        · rename_i hd12
          injection h with h
          injection h with h1 h2
          subst h1
          subst h2
          constructor
          · rw [← hsplit]
            simp
          · exact ⟨c, A, ['.', d1, d2], rfl, hc, hbody,
              Or.inr ⟨d1, d2, rfl, ((Bool.and_eq_true _ _).mp hd12).1,
                ((Bool.and_eq_true _ _).mp hd12).2⟩⟩
        · injection h with h
          injection h with h1 h2
          subst h1
          subst h2
          constructor
          · rw [← hsplit]
            simp
          · exact ⟨c, A, [], by simp, hc, hbody, Or.inl rfl⟩
      · injection h with h
        injection h with h1 h2
        subst h1
        subst h2
        constructor
        · rw [← hsplit]
          simp
        · exact ⟨c, A, [], by simp, hc, hbody, Or.inl rfl⟩
    · rw [if_neg hc] at h
      cases h

theorem numTokenGrammar_chars {num : PyStr} (h : NumTokenGrammar num) :
    ∀ a ∈ num, a = '.' ∨ a = ',' ∨ isDigit a = true := by
  obtain ⟨c, body, tail, hs, hc, hbody, htail⟩ := h
  subst hs
  intro a ha
  rcases List.mem_append.mp ha with hcb | ha
  · rcases List.mem_cons.mp hcb with rfl | ha
    · exact Or.inr (Or.inr hc)
    · have hcl := (List.all_eq_true.mp hbody) a ha
      rcases Bool.or_eq_true_iff.mp hcl with hd | hcm
      · exact Or.inr (Or.inr hd)
      · exact Or.inr (Or.inl (by simpa using hcm))
  · rcases htail with rfl | ⟨d1, d2, rfl, hd1, hd2⟩
    · cases ha
    · simp only [List.mem_cons, List.not_mem_nil, or_false] at ha
      rcases ha with rfl | rfl | rfl
      · exact Or.inl rfl
      · exact Or.inr (Or.inr hd1)
      · exact Or.inr (Or.inr hd2)

theorem numTokenGrammar_no_space {num : PyStr} (h : NumTokenGrammar num) :
    pyReplaceSpace num = num := by
  rw [pyReplaceSpace, List.filter_eq_self]
  intro a ha
  rcases numTokenGrammar_chars h a ha with rfl | rfl | hd
  · decide
  · decide
  · simp only [bne_iff_ne, ne_eq]
    intro hEq
    subst hEq
    simp [isDigit] at hd

theorem priceAt_spec {cs : PyStr} {sym : Char} {num : PyStr}
    (h : priceAt cs = some (sym, num)) :
    sym ∈ priceSymbols ∧ NumTokenGrammar num ∧
      ∃ ws rest, cs = sym :: ws ++ num ++ rest ∧ ws.all isPySpace = true := by
  cases cs with
  | nil => cases h
  | cons c cs' =>
    rw [priceAt] at h
    by_cases hc : priceSymbols.contains c = true
    · rw [if_pos hc] at h
      cases hm : matchNumAt (cs'.dropWhile isPySpace) with
      | none => rw [hm] at h; cases h
      | some pr =>
        obtain ⟨num', rest'⟩ := pr
        rw [hm] at h
        injection h with h
        injection h with h1 h2
        subst h1
        subst h2
        obtain ⟨happ, hgram⟩ := matchNumAt_append hm
        have hsplit := List.takeWhile_append_dropWhile (p := isPySpace) (l := cs')
        have hall : (cs'.takeWhile isPySpace).all isPySpace = true := List.all_takeWhile
        revert happ hsplit hall
        generalize cs'.takeWhile isPySpace = W
        generalize cs'.dropWhile isPySpace = D
        intro happ hsplit hall
        refine ⟨List.elem_iff.mp hc, hgram, W, rest', ?_, hall⟩
        rw [← hsplit, happ]
        simp
    · rw [if_neg hc] at h
      cases h

theorem versionAt_spec {cs m : PyStr} (h : versionAt cs = some m) :
    ∃ rest, cs = m ++ rest ∧ VersionTokenGrammar m := by
  rw [versionAt] at h
  obtain ⟨r1, hm1, h⟩ := Option.bind_eq_some.mp h
  have hcs := matchLit_append hm1
  cases r1 with
  | nil => cases h
  | cons s0 r1tail =>
    dsimp only at h
    by_cases hs0 : isPySpace s0 = true
    · rw [if_pos hs0] at h
      have hsp := List.takeWhile_append_dropWhile (p := isPySpace) (l := r1tail)
      have hspall : (r1tail.takeWhile isPySpace).all isPySpace = true :=
        List.all_takeWhile
      revert h hsp hspall
      generalize r1tail.takeWhile isPySpace = SP
      generalize r1tail.dropWhile isPySpace = R2
      intro h hsp hspall
      obtain ⟨r3, hm3, h⟩ := Option.bind_eq_some.mp h
      obtain ⟨d1r, hm4, h⟩ := Option.bind_eq_some.mp h
      obtain ⟨d1, r4⟩ := d1r
      have hr2 := matchLit_append hm3
      obtain ⟨hr3eq, hd1ne, hd1⟩ := matchDigits1_append hm4
      dsimp only at h
      split at h
      · rename_i r5
        obtain ⟨d2r, hm5, h⟩ := Option.map_eq_some'.mp h
        obtain ⟨d2, r6⟩ := d2r
        obtain ⟨hr5eq, hd2ne, hd2⟩ := matchDigits1_append hm5
        dsimp only at h
        subst h
        refine ⟨r6, ?_, ?_⟩
        · rw [hcs, ← hsp, hr2, hr3eq, hr5eq]
          simp
        · exact ⟨s0 :: SP, d1, d2, by simp, by simp, by simp [hs0, hspall], hd1ne, hd1,
            hd2ne, hd2⟩
      · cases h
    · rw [if_neg hs0] at h
      cases h

set_option maxRecDepth 8192 in
/-- **C2 (counterexample)** — The claim says the price strategy returns the
matched digits with commas removed.  The code's `.replace(" ", "")` deletes
spaces, which can never occur in the matched group, so the comma is retained:
on `"Price: $1,299.00 today"` the result is `"$1,299.00"`, not the claimed
`"$1299.00"`. -/
theorem C2_counterexample :
    extract_value ⟨"book_demo".data, "u".data, "d".data, none, true, "price".data⟩
        "Price: $1,299.00 today".data = "$1,299.00".data ∧
    extract_value ⟨"book_demo".data, "u".data, "d".data, none, true, "price".data⟩
        "Price: $1,299.00 today".data ≠ "$1299.00".data := by
  constructor
  · decide
  · decide

set_option maxRecDepth 8192 in
/-- **C2 (amended)** — For a `price` site, the strategy returns, for the
leftmost position admitting a match of `PRICE_PATTERN`, the currency symbol
followed by the matched digit group exactly as matched (spaces are deleted
from the group, a no-op; commas are retained); with no match anywhere it
returns the first 160 characters of the text.
`extract(price, "Price: $19.99 today") = "$19.99"`. -/
theorem C2_price_extraction (site : SiteConfig) (hsite : site.value_type = "price".data)
    (text : PyStr) :
    (∀ sym num, priceSearch text = some (sym, num) →
      extract_value site text = sym :: num ∧ sym ∈ priceSymbols ∧ NumTokenGrammar num ∧
      ∃ k, k ≤ text.length ∧ priceAt (text.drop k) = some (sym, num) ∧
        ∀ j < k, priceAt (text.drop j) = none) ∧
    (priceSearch text = none → extract_value site text = text.take 160) ∧
    extract_value site "Price: $19.99 today".data = "$19.99".data := by
  have hne1 : ¬ site.value_type = "stock_price".data := by
    rw [hsite]
    decide
  have hval : ∀ t : PyStr, extract_value site t =
      match priceSearch t with
      | some (sym, num) => sym :: pyReplaceSpace num
      | none => t.take 160 := by
    intro t
    unfold extract_value
    rw [if_neg hne1, if_pos hsite]
  refine ⟨fun sym num h => ?_, fun h => ?_, ?_⟩
  · obtain ⟨k, hk, hat, hbefore⟩ := (searchAt_eq_some_iff priceAt text (sym, num)).mp h
    obtain ⟨hsym, hgram, _⟩ := priceAt_spec hat
    refine ⟨?_, hsym, hgram, k, hk, hat, hbefore⟩
    rw [hval, h]
    simp [numTokenGrammar_no_space hgram]
  · rw [hval, h]
  · rw [hval]
    decide

/-- Closed instance of `C2_price_extraction` at a concrete `price` site and
the text of the spec's example. -/
theorem C2_witness :
    (⟨"book_demo".data, "u".data, "d".data, none, true, "price".data⟩ :
      SiteConfig).value_type = "price".data ∧
    extract_value ⟨"book_demo".data, "u".data, "d".data, none, true, "price".data⟩
      "Price: $19.99 today".data = "$19.99".data :=
  ⟨rfl, (C2_price_extraction
    ⟨"book_demo".data, "u".data, "d".data, none, true, "price".data⟩ rfl
    "Price: $19.99 today".data).2.2⟩

set_option maxRecDepth 8192 in
/-- **C8** — For a `version` site, the strategy returns the exact first
substring matching `Python\s+3\.\d+\.\d+` when one exists (so
`extract(version, "Download Python 3.13.2 now") = "Python 3.13.2"`), and the
first 160 characters of the text otherwise.  `\d` is the full Unicode
decimal-digit set, so e.g. ARABIC-INDIC digits (U+0660) also match. -/
theorem C8_version_extraction (site : SiteConfig)
    (hsite : site.value_type = "version".data) (text : PyStr) :
    (∀ m, versionSearch text = some m →
      extract_value site text = m ∧ VersionTokenGrammar m ∧
      (∃ pre suf, text = pre ++ m ++ suf) ∧
      ∃ k, k ≤ text.length ∧ versionAt (text.drop k) = some m ∧
        ∀ j < k, versionAt (text.drop j) = none) ∧
    (versionSearch text = none → extract_value site text = text.take 160) ∧
    extract_value site "Download Python 3.13.2 now".data = "Python 3.13.2".data ∧
    extract_value site "xx Python 3.\u0660.\u0660 yy".data =
      "Python 3.\u0660.\u0660".data := by
  have hne1 : ¬ site.value_type = "stock_price".data := by
    rw [hsite]
    decide
  have hne2 : ¬ site.value_type = "price".data := by
    rw [hsite]
    decide
  have hval : ∀ t : PyStr, extract_value site t =
      match versionSearch t with
      | some m => m
      | none => t.take 160 := by
    intro t
    unfold extract_value
    rw [if_neg hne1, if_neg hne2, if_pos hsite]
  refine ⟨fun m h => ?_, fun h => ?_, ?_, ?_⟩
  · obtain ⟨k, hk, hat, hbefore⟩ := (searchAt_eq_some_iff versionAt text m).mp h
    obtain ⟨rest, happ, hgram⟩ := versionAt_spec hat
    refine ⟨by rw [hval, h], hgram, ⟨text.take k, rest, ?_⟩, k, hk, hat, hbefore⟩
    rw [List.append_assoc, ← happ]
    exact (List.take_append_drop k text).symm
  · rw [hval, h]
  · rw [hval]
    decide
  · rw [hval]
    decide

/-- Closed instance of `C8_version_extraction` at a concrete `version` site
and the text of the spec's example. -/
theorem C8_witness :
    (⟨"python_release".data, "u".data, "d".data, none, true, "version".data⟩ :
      SiteConfig).value_type = "version".data ∧
    extract_value ⟨"python_release".data, "u".data, "d".data, none, true, "version".data⟩
      "Download Python 3.13.2 now".data = "Python 3.13.2".data :=
  ⟨rfl, (C8_version_extraction
    ⟨"python_release".data, "u".data, "d".data, none, true, "version".data⟩ rfl
    "Download Python 3.13.2 now".data).2.2.1⟩

/-
Helper lemmas: numbers, rendering and the difference analyzer.
-/

theorem digitChar_toNat {k : Nat} (h : k < 10) : (digitChar k).toNat = 48 + k := by
  interval_cases k <;> decide

theorem digitChar_isDigit {k : Nat} (h : k < 10) : isDigit (digitChar k) = true := by
  interval_cases k <;> decide

theorem isDigit_ne_dot {a : Char} (h : isDigit a = true) : (a != '.') = true := by
  simp only [bne_iff_ne, ne_eq]
  intro hEq
  subst hEq
  simp [isDigit] at h

theorem natOfDigits_append_digit (xs : PyStr) (d : Char) :
    natOfDigits (xs ++ [d]) = 10 * natOfDigits xs + (d.toNat - 48) := by
  rw [natOfDigits, List.foldl_append]
  rfl

theorem natDec_all_isDigit (n : Nat) : ∀ a ∈ natDec n, isDigit a = true := by
  induction n using Nat.strong_induction_on with
  | _ n ih =>
    rw [natDec]
    split
    · rename_i h
      intro a ha
      simp only [List.mem_singleton] at ha
      subst ha
      exact digitChar_isDigit h
    · rename_i h
      intro a ha
      rcases List.mem_append.mp ha with ha | ha
      · exact ih (n / 10) (Nat.div_lt_self (by omega) (by omega)) a ha
      · simp only [List.mem_singleton] at ha
        subst ha
        exact digitChar_isDigit (Nat.mod_lt _ (by omega))

theorem natOfDigits_natDec (n : Nat) : natOfDigits (natDec n) = n := by
  induction n using Nat.strong_induction_on with
  | _ n ih =>
    rw [natDec]
    split
    · rename_i h
      show natOfDigits [digitChar n] = n
      rw [show ([digitChar n] : PyStr) = [] ++ [digitChar n] from rfl,
        natOfDigits_append_digit, digitChar_toNat h]
      simp only [natOfDigits, List.foldl_nil]
      omega
    · rename_i h
      rw [natOfDigits_append_digit,
        ih (n / 10) (Nat.div_lt_self (by omega) (by omega)),
        digitChar_toNat (Nat.mod_lt _ (by omega))]
      omega

theorem natOfDigits_two (x y : Nat) (hx : x < 10) (hy : y < 10) :
    natOfDigits [digitChar x, digitChar y] = 10 * x + y := by
  rw [show ([digitChar x, digitChar y] : PyStr) = [digitChar x] ++ [digitChar y] from rfl,
    natOfDigits_append_digit, digitChar_toNat hy,
    show ([digitChar x] : PyStr) = [] ++ [digitChar x] from rfl,
    natOfDigits_append_digit, digitChar_toNat hx]
  simp only [natOfDigits, List.foldl_nil]
  omega

theorem ratOfFixed2_cons_plus (rest : PyStr) :
    ratOfFixed2 ('+' :: rest) =
      natOfDigits (rest.takeWhile (· != '.')) +
        (natOfDigits ((rest.dropWhile (· != '.')).drop 1) : ℚ) / 100 := rfl

theorem ratOfFixed2_cons_minus (rest : PyStr) :
    ratOfFixed2 ('-' :: rest) =
      -(natOfDigits (rest.takeWhile (· != '.')) +
        (natOfDigits ((rest.dropWhile (· != '.')).drop 1) : ℚ) / 100) := rfl

theorem filter_comma_digits {body : PyStr} (h : body.all isDigitOrComma = true) :
    ∀ a ∈ body.filter (· != ','), isDigit a = true := by
  intro a ha
  obtain ⟨hmem, hne⟩ := List.mem_filter.mp ha
  have := List.all_eq_true.mp h a hmem
  rcases Bool.or_eq_true_iff.mp this with hd | hcm
  · exact hd
  · exfalso
    simp only [bne_iff_ne, ne_eq] at hne
    exact hne (by simpa using hcm)

theorem isDigit_ne_comma {a : Char} (h : isDigit a = true) : (a != ',') = true := by
  simp only [bne_iff_ne, ne_eq]
  intro hEq
  subst hEq
  simp [isDigit] at h

theorem decimalOfToken_hundredths {num : PyStr} (hgram : NumTokenGrammar num) :
    ∃ z : ℤ, decimalOfToken (pyReplaceComma num) * 100 = (z : ℚ) := by
  obtain ⟨c, body, tail, hs, hc, hbody, htail⟩ := hgram
  subst hs
  have hfc : pyReplaceComma ((c :: body) ++ tail) =
      (c :: body.filter (· != ',')) ++ tail.filter (· != ',') := by
    rw [pyReplaceComma, List.filter_append, List.filter_cons,
      if_pos (isDigit_ne_comma hc)]
  have hdigits : ∀ a ∈ c :: body.filter (· != ','), (a != '.') = true := by
    intro a ha
    rcases List.mem_cons.mp ha with rfl | ha
    · exact isDigit_ne_dot hc
    · exact isDigit_ne_dot (filter_comma_digits hbody a ha)
  rcases htail with rfl | ⟨d1, d2, rfl, hd1, hd2⟩
  · rw [hfc]
    simp only [List.filter_nil, List.append_nil]
    have hd : (c :: body.filter (· != ',')).dropWhile (· != '.') = [] := by
      conv_lhs => rw [← List.append_nil (c :: body.filter (· != ','))]
      rw [List.dropWhile_append_of_pos hdigits]
      rfl
    have ht : (c :: body.filter (· != ',')).takeWhile (· != '.') =
        c :: body.filter (· != ',') := by
      conv_lhs => rw [← List.append_nil (c :: body.filter (· != ','))]
      rw [List.takeWhile_append_of_pos hdigits]
      simp
    refine ⟨100 * (natOfDigits (c :: body.filter (· != ',')) : ℤ), ?_⟩
    rw [decimalOfToken, hd]
    dsimp only
    rw [ht]
    push_cast
    ring
  · have hft : ((['.', d1, d2] : PyStr)).filter (· != ',') = ['.', d1, d2] := by
      rw [List.filter_cons, if_pos (by decide), List.filter_cons,
        if_pos (isDigit_ne_comma hd1), List.filter_cons, if_pos (isDigit_ne_comma hd2)]
      rfl
    rw [hfc, hft]
    have hdrop : ((['.', d1, d2] : PyStr)).dropWhile (· != '.') = ['.', d1, d2] := by
      rw [List.dropWhile_cons]
      simp
    have htake : ((['.', d1, d2] : PyStr)).takeWhile (· != '.') = [] := by
      rw [List.takeWhile_cons]
      simp
    refine ⟨100 * (natOfDigits (c :: body.filter (· != ',')) : ℤ) +
      (natOfDigits [d1, d2] : ℤ), ?_⟩
    rw [decimalOfToken, List.dropWhile_append_of_pos hdigits, hdrop,
      List.takeWhile_append_of_pos hdigits, htake, List.append_nil]
    push_cast
    field_simp
    ring

theorem decimalOfToken_dot {s ds : PyStr} (hdw : s.dropWhile (· != '.') = '.' :: ds) :
    decimalOfToken s =
      natOfDigits (s.takeWhile (· != '.')) + (natOfDigits ds : ℚ) / 10 ^ ds.length := by
  rw [decimalOfToken, hdw]
  rfl

/-
The binary64 model: evaluation lemmas for `bitLen`, `rhe`, `qexp` and
`roundPos`, then the formatting lemmas, then concrete instances.
-/

theorem bitLenAux_zero (fuel : Nat) : bitLenAux fuel 0 = 0 := by
  cases fuel with
  | zero => rfl
  | succ f => rw [bitLenAux, if_pos rfl]

theorem bitLenAux_eq : ∀ (fuel n k : Nat), 2 ^ k ≤ n → n < 2 ^ (k + 1) → k < fuel →
    bitLenAux fuel n = k + 1 := by
  intro fuel
  induction fuel with
  | zero => intro n k _ _ h; omega
  | succ f ih =>
    intro n k h1 h2 hk
    have hpow : 0 < 2 ^ k := Nat.two_pow_pos k
    have hn0 : ¬ n = 0 := by omega
    rw [bitLenAux, if_neg hn0]
    cases k with
    | zero =>
      have hn1 : n = 1 := by
        simp only [pow_zero, pow_one] at h1 h2
        omega
      subst hn1
      rw [show (1 / 2 : ℕ) = 0 from rfl, bitLenAux_zero]
    | succ k' =>
      have hb1 : 2 ^ k' ≤ n / 2 := by
        rw [Nat.le_div_iff_mul_le (by norm_num : 0 < 2)]
        calc 2 ^ k' * 2 = 2 ^ (k' + 1) := (pow_succ 2 k').symm
          _ ≤ n := h1
      have hb2 : n / 2 < 2 ^ (k' + 1) := by
        rw [Nat.div_lt_iff_lt_mul (by norm_num : 0 < 2)]
        calc n < 2 ^ (k' + 1 + 1) := h2
          _ = 2 ^ (k' + 1) * 2 := pow_succ 2 (k' + 1)
      rw [ih (n / 2) k' hb1 hb2 (by omega)]

theorem bitLen_eq {n k : Nat} (h1 : 2 ^ k ≤ n) (h2 : n < 2 ^ (k + 1))
    (hk : k < 2200) : bitLen n = k + 1 :=
  bitLenAux_eq 2200 n k h1 h2 hk

theorem rhe_intCast (z : ℤ) : rhe ((z : ℚ)) = z := by
  have h : ((z : ℚ)) - ⌊(z : ℚ)⌋ = 0 := by
    rw [Int.floor_intCast]
    ring
  rw [rhe, h, if_pos (by norm_num), Int.floor_intCast]

theorem rhe_floor_lt {q : ℚ} {z : ℤ} (hfl : ⌊q⌋ = z) (hlt : q - (z : ℚ) < 1 / 2) :
    rhe q = z := by
  rw [rhe, hfl, if_pos hlt]

theorem rhe_sub_abs (q : ℚ) : |(rhe q : ℚ) - q| ≤ 1 / 2 := by
  have h1 : (⌊q⌋ : ℚ) ≤ q := Int.floor_le q
  have h2 : q < ⌊q⌋ + 1 := Int.lt_floor_add_one q
  rw [rhe]
  split_ifs with ha hb hc
  · rw [abs_le]
    constructor <;> linarith
  · rw [abs_le]
    push_cast
    constructor <;> linarith
  · rw [abs_le]
    constructor <;> linarith
  · rw [abs_le]
    push_cast
    constructor <;> linarith

theorem rhe_nonneg {q : ℚ} (h : 0 ≤ q) : 0 ≤ rhe q := by
  have h1 : 0 ≤ ⌊q⌋ := Int.floor_nonneg.mpr h
  rw [rhe]
  split_ifs <;> omega

theorem rhe_nonpos {q : ℚ} (h : q ≤ 0) : rhe q ≤ 0 := by
  have h0 : ⌊q⌋ ≤ 0 := by
    calc ⌊q⌋ ≤ ⌊(0 : ℚ)⌋ := Int.floor_le_floor h
      _ = 0 := Int.floor_zero
  have hfl : (⌊q⌋ : ℚ) ≤ q := Int.floor_le q
  rw [rhe]
  split_ifs with ha hb hc
  · exact h0
  · by_contra hcon
    have h00 : ⌊q⌋ = 0 := by omega
    rw [h00] at hb
    push_cast at hb
    linarith
  · exact h0
  · by_contra hcon
    have h00 : ⌊q⌋ = 0 := by omega
    rw [h00] at ha hb
    push_cast at ha hb
    linarith

theorem two_zpow_add (a b : ℤ) : (2 : ℚ) ^ (a + b) = 2 ^ a * 2 ^ b :=
  zpow_add₀ (by norm_num) a b

theorem qexp_eq (q : ℚ) (e : ℤ) (h1 : 2 ^ e ≤ q) (h2 : q < 2 ^ (e + 1))
    (h3 : -1022 ≤ e) (h4 : e ≤ 1023) : qexp q = e := by
  have hk0 : (0 : ℤ) ≤ e + 1074 := by omega
  have hke : (((e + 1074).toNat : ℤ)) = e + 1074 := Int.toNat_of_nonneg hk0
  have hb1 : (2 : ℚ) ^ (e + 1074) ≤ q * 2 ^ (1074 : ℕ) := by
    rw [show (e + 1074 : ℤ) = e + ((1074 : ℕ) : ℤ) from by push_cast; ring,
      two_zpow_add, zpow_natCast]
    exact mul_le_mul_of_nonneg_right h1 (by positivity)
  have hb2 : q * 2 ^ (1074 : ℕ) < (2 : ℚ) ^ (e + 1075) := by
    rw [show (e + 1075 : ℤ) = (e + 1) + ((1074 : ℕ) : ℤ) from by push_cast; ring,
      two_zpow_add, zpow_natCast]
    exact mul_lt_mul_of_pos_right h2 (by positivity)
  have hz1 : (2 : ℤ) ^ (e + 1074).toNat ≤ ⌊q * 2 ^ (1074 : ℕ)⌋ := by
    apply Int.le_floor.mpr
    have hcast : (((2 : ℤ) ^ (e + 1074).toNat : ℤ) : ℚ) = (2 : ℚ) ^ (e + 1074) := by
      push_cast
      rw [← zpow_natCast (2 : ℚ) (e + 1074).toNat, hke]
    rw [hcast]
    exact hb1
  have hz2 : ⌊q * 2 ^ (1074 : ℕ)⌋ < (2 : ℤ) ^ ((e + 1074).toNat + 1) := by
    apply Int.floor_lt.mpr
    have hcast : (((2 : ℤ) ^ ((e + 1074).toNat + 1) : ℤ) : ℚ) = (2 : ℚ) ^ (e + 1075) := by
      push_cast
      rw [← zpow_natCast (2 : ℚ) ((e + 1074).toNat + 1)]
      congr 1
      omega
    rw [hcast]
    exact hb2
  have hnn : (0 : ℤ) ≤ ⌊q * 2 ^ (1074 : ℕ)⌋ :=
    le_trans (pow_nonneg (by norm_num) _) hz1
  have hn1 : 2 ^ (e + 1074).toNat ≤ (⌊q * 2 ^ (1074 : ℕ)⌋).toNat := by
    rw [← Int.toNat_of_nonneg hnn] at hz1
    exact_mod_cast hz1
  have hn2 : (⌊q * 2 ^ (1074 : ℕ)⌋).toNat < 2 ^ ((e + 1074).toNat + 1) := by
    rw [← Int.toNat_of_nonneg hnn] at hz2
    exact_mod_cast hz2
  have hbl : bitLen (⌊q * 2 ^ (1074 : ℕ)⌋).toNat = (e + 1074).toNat + 1 :=
    bitLen_eq hn1 hn2 (by omega)
  rw [qexp, hbl]
  omega

theorem roundPos_eval (q : ℚ) (e : ℤ) (h1 : 2 ^ e ≤ q) (h2 : q < 2 ^ (e + 1))
    (h3 : -1022 ≤ e) (h4 : e ≤ 1023) (h5 : ¬ ((2 : ℚ) ^ 1024 - 2 ^ 970 ≤ q)) :
    roundPos q = some ((rhe (q * 2 ^ (52 - e)) : ℚ) * 2 ^ (e - 52)) := by
  rw [roundPos, if_neg h5, qexp_eq q e h1 h2 h3 h4]

/-- A rational whose scaled significand is already an integer (an exactly
representable binary64) rounds to itself. -/
theorem roundPos_exact (q : ℚ) (e : ℤ) (z : ℤ) (h1 : 2 ^ e ≤ q)
    (h2 : q < 2 ^ (e + 1)) (h3 : -1022 ≤ e) (h4 : e ≤ 1023)
    (h5 : ¬ ((2 : ℚ) ^ 1024 - 2 ^ 970 ≤ q)) (hz : q * 2 ^ (52 - e) = (z : ℚ)) :
    roundPos q = some q := by
  rw [roundPos_eval q e h1 h2 h3 h4 h5, hz, rhe_intCast, ← hz, mul_assoc,
    ← two_zpow_add, show (52 - e + (e - 52) : ℤ) = 0 from by ring, zpow_zero,
    mul_one]

theorem pyFloatOfToken_eval {s : PyStr} {q r : ℚ} (hq : decimalOfToken s = q)
    (hq0 : ¬ q = 0) (hr : roundPos q = some r) : pyFloatOfToken s = .finite r := by
  rw [pyFloatOfToken, hq, if_neg hq0, hr]

theorem ratOfFixed2_formatPlus2f (d : ℚ) :
    ratOfFixed2 (formatPlus2f (.finite d)) = (rhe (d * 100) : ℚ) / 100 := by
  have hnodot : ∀ a ∈ natDec ((rhe (d * 100)).natAbs / 100), (a != '.') = true :=
    fun a ha => isDigit_ne_dot (natDec_all_isDigit _ a ha)
  have htw : (natDec ((rhe (d * 100)).natAbs / 100) ++
      '.' :: [digitChar ((rhe (d * 100)).natAbs / 10 % 10),
        digitChar ((rhe (d * 100)).natAbs % 10)]).takeWhile (· != '.') =
      natDec ((rhe (d * 100)).natAbs / 100) := by
    rw [List.takeWhile_append_of_pos hnodot]
    simp
  have hdw : (natDec ((rhe (d * 100)).natAbs / 100) ++
      '.' :: [digitChar ((rhe (d * 100)).natAbs / 10 % 10),
        digitChar ((rhe (d * 100)).natAbs % 10)]).dropWhile (· != '.') =
      '.' :: [digitChar ((rhe (d * 100)).natAbs / 10 % 10),
        digitChar ((rhe (d * 100)).natAbs % 10)] := by
    rw [List.dropWhile_append_of_pos hnodot]
    simp
  have hmag : (natOfDigits (natDec ((rhe (d * 100)).natAbs / 100)) : ℚ) +
      (natOfDigits [digitChar ((rhe (d * 100)).natAbs / 10 % 10),
        digitChar ((rhe (d * 100)).natAbs % 10)] : ℚ) / 100 =
      ((rhe (d * 100)).natAbs : ℚ) / 100 := by
    rw [natOfDigits_natDec,
      natOfDigits_two _ _ (Nat.mod_lt _ (by omega)) (Nat.mod_lt _ (by omega))]
    have h1 : 10 * ((rhe (d * 100)).natAbs / 10 % 10) + (rhe (d * 100)).natAbs % 10 =
        (rhe (d * 100)).natAbs % 100 := by
      omega
    rw [h1]
    have h2 : 100 * ((rhe (d * 100)).natAbs / 100) + (rhe (d * 100)).natAbs % 100 =
        (rhe (d * 100)).natAbs := Nat.div_add_mod _ _
    field_simp
    norm_cast
    omega
  rw [formatPlus2f]
  by_cases hd0 : d < 0
  · rw [if_pos hd0, List.cons_append, ratOfFixed2_cons_minus, htw, hdw]
    simp only [List.drop_succ_cons, List.drop_zero]
    rw [hmag]
    have hzle : rhe (d * 100) ≤ 0 := rhe_nonpos (by nlinarith)
    have h1 : ((rhe (d * 100)).natAbs : ℤ) = -(rhe (d * 100)) := by omega
    have h2 : (((rhe (d * 100)).natAbs : ℕ) : ℚ) = -((rhe (d * 100)) : ℚ) := by
      calc (((rhe (d * 100)).natAbs : ℕ) : ℚ)
          = (((rhe (d * 100)).natAbs : ℤ) : ℚ) := (Int.cast_natCast _).symm
        _ = ((-(rhe (d * 100)) : ℤ) : ℚ) := by rw [h1]
        _ = -((rhe (d * 100)) : ℚ) := by push_cast; ring
    rw [h2]
    ring
  · rw [if_neg hd0, List.cons_append, ratOfFixed2_cons_plus, htw, hdw]
    simp only [List.drop_succ_cons, List.drop_zero]
    rw [hmag]
    have hzge : 0 ≤ rhe (d * 100) :=
      rhe_nonneg (mul_nonneg (not_lt.mp hd0) (by norm_num))
    have h1 : ((rhe (d * 100)).natAbs : ℤ) = rhe (d * 100) := by omega
    have h2 : (((rhe (d * 100)).natAbs : ℕ) : ℚ) = ((rhe (d * 100)) : ℚ) := by
      calc (((rhe (d * 100)).natAbs : ℕ) : ℚ)
          = (((rhe (d * 100)).natAbs : ℤ) : ℚ) := (Int.cast_natCast _).symm
        _ = _ := by rw [h1]
    rw [h2]

/-- The printed hundredths are within half a cent of the double they render. -/
theorem formatPlus2f_round_close (d : ℚ) :
    |(rhe (d * 100) : ℚ) / 100 - d| ≤ 1 / 200 := by
  have h := rhe_sub_abs (d * 100)
  rw [show (rhe (d * 100) : ℚ) / 100 - d = ((rhe (d * 100) : ℚ) - d * 100) / 100 from
    by ring, abs_div, abs_of_pos (by norm_num : (0 : ℚ) < 100)]
  linarith

/-
Concrete binary64 instances: the spec example and the collapse at 10^16.
-/

theorem roundPos_ten : roundPos ((10 : ℚ)) = some 10 := by
  apply roundPos_exact 10 3 (10 * 2 ^ 49)
  · norm_num
  · norm_num
  · norm_num
  · norm_num
  · norm_num
  · push_cast
    norm_num

theorem roundPos_twelve_half : roundPos ((25 : ℚ) / 2) = some ((25 : ℚ) / 2) := by
  apply roundPos_exact _ 3 (25 * 2 ^ 48)
  · norm_num
  · norm_num
  · norm_num
  · norm_num
  · norm_num
  · push_cast
    norm_num

theorem roundPos_five_half : roundPos ((5 : ℚ) / 2) = some ((5 : ℚ) / 2) := by
  apply roundPos_exact _ 1 (5 * 2 ^ 50)
  · norm_num
  · norm_num
  · norm_num
  · norm_num
  · norm_num
  · push_cast
    norm_num

set_option maxRecDepth 8192 in
theorem parse_ten : parse_number_from_value "$10.00".data = some (.finite (10 : ℚ)) := by
  have hs : numSearch "$10.00".data = some "10.00".data := by decide
  have hpc : pyReplaceComma "10.00".data = "10.00".data := by decide
  have hdw : "10.00".data.dropWhile (· != '.') = '.' :: ['0', '0'] := by decide
  have htw : "10.00".data.takeWhile (· != '.') = ['1', '0'] := by decide
  have h1 : natOfDigits ['1', '0'] = 10 := by decide
  have h2 : natOfDigits ['0', '0'] = 0 := by decide
  have hq : decimalOfToken "10.00".data = 10 := by
    rw [decimalOfToken_dot hdw, htw, h1, h2]
    norm_num
  rw [parse_number_from_value, hs, Option.map_some', hpc,
    pyFloatOfToken_eval hq (by norm_num) roundPos_ten]

set_option maxRecDepth 8192 in
theorem parse_twelve_fifty :
    parse_number_from_value "$12.50".data = some (.finite ((25 : ℚ) / 2)) := by
  have hs : numSearch "$12.50".data = some "12.50".data := by decide
  have hpc : pyReplaceComma "12.50".data = "12.50".data := by decide
  have hdw : "12.50".data.dropWhile (· != '.') = '.' :: ['5', '0'] := by decide
  have htw : "12.50".data.takeWhile (· != '.') = ['1', '2'] := by decide
  have h1 : natOfDigits ['1', '2'] = 12 := by decide
  have h2 : natOfDigits ['5', '0'] = 50 := by decide
  have hq : decimalOfToken "12.50".data = (25 : ℚ) / 2 := by
    rw [decimalOfToken_dot hdw, htw, h1, h2]
    norm_num
  rw [parse_number_from_value, hs, Option.map_some', hpc,
    pyFloatOfToken_eval hq (by norm_num) roundPos_twelve_half]

theorem sub_ten_twelve :
    pySub (.finite ((25 : ℚ) / 2)) (.finite (10 : ℚ)) = .finite ((5 : ℚ) / 2) := by
  rw [pySub, if_neg (by norm_num), if_pos (by norm_num),
    show (25 : ℚ) / 2 - 10 = 5 / 2 from by norm_num, roundPos_five_half]

set_option maxRecDepth 8192 in
theorem formatPlus2f_example : formatPlus2f (.finite ((5 : ℚ) / 2)) = "+2.50".data := by
  have h : rhe ((5 : ℚ) / 2 * 100) = 250 := by
    rw [show ((5 : ℚ) / 2 * 100) = ((250 : ℤ) : ℚ) from by norm_num, rhe_intCast]
  have hnd : natDec ((250 : ℤ).natAbs / 100) = ['2'] := by
    rw [show ((250 : ℤ).natAbs / 100) = 2 from by decide, natDec,
      dif_pos (by omega : (2 : ℕ) < 10)]
    decide
  rw [formatPlus2f, if_neg (by norm_num : ¬ ((5 : ℚ) / 2 < 0)), h, hnd]
  decide

set_option maxRecDepth 8192 in
theorem parse_operational : parse_number_from_value "Operational".data = none := by
  rw [parse_number_from_value,
    show numSearch "Operational".data = none from by decide]
  rfl

set_option maxRecDepth 8192 in
/-- **C6 (amended)** — The difference analyzer extracts the first numeric
token from each value independently (commas stripped) and converts it with
`float`, i.e. to the nearest binary64; if either value has no token it
reports no difference computable (the empty string); otherwise it computes
the binary64 difference `diff = newFloat - oldFloat` and reports an arrow
classifying `diff` (up when `diff > 0`, down when `diff < 0`, flat otherwise
— including a NaN `diff`) and the rendering `f"{diff:+.2f}"`, which for
finite `diff` denotes `diff` rounded half-to-even to hundredths, within
`1/200` of `diff`.  `diff("$10.00", "$12.50")` is up by `+2.50`;
`diff("Operational", "Degraded")` is not computable. -/
theorem C6_difference (old_value new_value : PyStr) :
    ((parse_number_from_value old_value = none ∨
        parse_number_from_value new_value = none) →
      describe_difference old_value new_value = []) ∧
    (∀ fo fn, parse_number_from_value old_value = some fo →
      parse_number_from_value new_value = some fn →
      describe_difference old_value new_value =
        (if pyPos (pySub fn fo) then arrowUp
          else if pyNeg (pySub fn fo) then arrowDown else arrowFlat) ++
          ' ' :: formatPlus2f (pySub fn fo) ∧
      ∀ d : ℚ, pySub fn fo = .finite d →
        (pyPos (pySub fn fo) = true ↔ 0 < d) ∧
        (pyNeg (pySub fn fo) = true ↔ d < 0) ∧
        ratOfFixed2 (formatPlus2f (.finite d)) = (rhe (d * 100) : ℚ) / 100 ∧
        |(rhe (d * 100) : ℚ) / 100 - d| ≤ 1 / 200) ∧
    describe_difference "$10.00".data "$12.50".data = arrowUp ++ " +2.50".data ∧
    describe_difference "Operational".data "Degraded".data = [] := by
  refine ⟨fun h => ?_, fun fo fn ho hn => ⟨?_, fun d hd => ⟨?_, ?_, ?_, ?_⟩⟩, ?_, ?_⟩
  · rcases h with h | h
    · rw [describe_difference, h]
    · cases hx : parse_number_from_value old_value with
      | none => rw [describe_difference, hx]
      | some o => rw [describe_difference, hx, h]
  · rw [describe_difference, ho, hn]
  · rw [hd]
    simp [pyPos]
  · rw [hd]
    simp [pyNeg]
  · exact ratOfFixed2_formatPlus2f d
  · exact formatPlus2f_round_close d
  · rw [describe_difference, parse_ten, parse_twelve_fifty]
    show (if pyPos (pySub (.finite ((25 : ℚ) / 2)) (.finite 10)) then arrowUp
        else if pyNeg (pySub (.finite ((25 : ℚ) / 2)) (.finite 10)) then arrowDown
        else arrowFlat) ++
        ' ' :: formatPlus2f (pySub (.finite ((25 : ℚ) / 2)) (.finite 10)) =
      arrowUp ++ " +2.50".data
    rw [sub_ten_twelve, if_pos (by norm_num [pyPos]), formatPlus2f_example]
  · rw [describe_difference, parse_operational]

set_option maxRecDepth 8192 in
/-- Closed instance of `C6_difference` at the spec's example values. -/
theorem C6_witness :
    parse_number_from_value "$10.00".data = some (.finite (10 : ℚ)) ∧
    parse_number_from_value "$12.50".data = some (.finite ((25 : ℚ) / 2)) ∧
    describe_difference "$10.00".data "$12.50".data =
      (if pyPos (pySub (.finite ((25 : ℚ) / 2)) (.finite 10)) then arrowUp
        else if pyNeg (pySub (.finite ((25 : ℚ) / 2)) (.finite 10)) then arrowDown
        else arrowFlat) ++
        ' ' :: formatPlus2f (pySub (.finite ((25 : ℚ) / 2)) (.finite 10)) :=
  ⟨parse_ten, parse_twelve_fifty,
    ((C6_difference "$10.00".data "$12.50".data).2.1 (.finite 10) (.finite ((25 : ℚ) / 2))
      parse_ten parse_twelve_fifty).1⟩

/-
The collapse at magnitude 10^16: the exact token values differ by 1/100 but
round to the same binary64, so the program reports a flat arrow and +0.00.
-/

theorem roundPos_big : roundPos ((10 : ℚ) ^ 16) = some ((10 : ℚ) ^ 16) := by
  apply roundPos_exact _ 53 (5 * 10 ^ 15)
  · rw [show ((53 : ℤ)) = ((53 : ℕ) : ℤ) from by norm_num, zpow_natCast]
    norm_num
  · rw [show ((53 : ℤ) + 1) = ((54 : ℕ) : ℤ) from by norm_num, zpow_natCast]
    norm_num
  · norm_num
  · norm_num
  · norm_num
  · rw [show ((52 : ℤ) - 53) = -1 from by norm_num, zpow_neg, zpow_one]
    push_cast
    norm_num

theorem roundPos_big1 :
    roundPos ((10 : ℚ) ^ 16 + 1 / 100) = some ((10 : ℚ) ^ 16) := by
  rw [roundPos_eval ((10 : ℚ) ^ 16 + 1 / 100) 53
    (by rw [show ((53 : ℤ)) = ((53 : ℕ) : ℤ) from by norm_num, zpow_natCast]; norm_num)
    (by rw [show ((53 : ℤ) + 1) = ((54 : ℕ) : ℤ) from by norm_num, zpow_natCast]; norm_num)
    (by norm_num) (by norm_num) (by norm_num)]
  rw [show ((10 : ℚ) ^ 16 + 1 / 100) * 2 ^ ((52 : ℤ) - 53) =
      ((5 * 10 ^ 15 : ℚ) + 1 / 200) from by
    rw [show ((52 : ℤ) - 53) = -1 from by norm_num, zpow_neg, zpow_one]
    norm_num]
  have hfl : ⌊((5 * 10 ^ 15 : ℚ) + 1 / 200)⌋ = 5 * 10 ^ 15 := by
    rw [Int.floor_eq_iff]
    constructor
    · push_cast
      norm_num
    · push_cast
      norm_num
  have hlt : ((5 * 10 ^ 15 : ℚ) + 1 / 200) - ((5 * 10 ^ 15 : ℤ) : ℚ) < 1 / 2 := by
    push_cast
    norm_num
  rw [rhe_floor_lt hfl hlt, show ((53 : ℤ) - 52) = 1 from by norm_num, zpow_one]
  push_cast
  norm_num

set_option maxRecDepth 8192 in
theorem parse_big0 :
    parse_number_from_value "$10000000000000000.00".data =
      some (.finite ((10 : ℚ) ^ 16)) := by
  have hs : numSearch "$10000000000000000.00".data =
      some "10000000000000000.00".data := by decide
  have hpc : pyReplaceComma "10000000000000000.00".data =
      "10000000000000000.00".data := by decide
  have hdw : "10000000000000000.00".data.dropWhile (· != '.') = '.' :: ['0', '0'] := by
    decide
  have htw : "10000000000000000.00".data.takeWhile (· != '.') =
      "10000000000000000".data := by decide
  have h1 : natOfDigits "10000000000000000".data = 10 ^ 16 := by decide
  have h2 : natOfDigits ['0', '0'] = 0 := by decide
  have hq : decimalOfToken "10000000000000000.00".data = (10 : ℚ) ^ 16 := by
    rw [decimalOfToken_dot hdw, htw, h1, h2]
    push_cast
    norm_num
  rw [parse_number_from_value, hs, Option.map_some', hpc,
    pyFloatOfToken_eval hq (by positivity) roundPos_big]

set_option maxRecDepth 8192 in
theorem parse_big1 :
    parse_number_from_value "$10000000000000000.01".data =
      some (.finite ((10 : ℚ) ^ 16)) := by
  have hs : numSearch "$10000000000000000.01".data =
      some "10000000000000000.01".data := by decide
  have hpc : pyReplaceComma "10000000000000000.01".data =
      "10000000000000000.01".data := by decide
  have hdw : "10000000000000000.01".data.dropWhile (· != '.') = '.' :: ['0', '1'] := by
    decide
  have htw : "10000000000000000.01".data.takeWhile (· != '.') =
      "10000000000000000".data := by decide
  have h1 : natOfDigits "10000000000000000".data = 10 ^ 16 := by decide
  have h2 : natOfDigits ['0', '1'] = 1 := by decide
  have hq : decimalOfToken "10000000000000000.01".data = (10 : ℚ) ^ 16 + 1 / 100 := by
    rw [decimalOfToken_dot hdw, htw, h1, h2]
    push_cast
    norm_num
  rw [parse_number_from_value, hs, Option.map_some', hpc,
    pyFloatOfToken_eval hq (by positivity) roundPos_big1]

theorem formatPlus2f_zero : formatPlus2f (.finite (0 : ℚ)) = "+0.00".data := by
  have h : rhe ((0 : ℚ) * 100) = 0 := by
    rw [show ((0 : ℚ) * 100) = ((0 : ℤ) : ℚ) from by norm_num, rhe_intCast]
  have hnd : natDec ((0 : ℤ).natAbs / 100) = ['0'] := by
    rw [show ((0 : ℤ).natAbs / 100) = 0 from rfl, natDec, dif_pos (by omega : (0 : ℕ) < 10)]
    decide
  rw [formatPlus2f, if_neg (lt_irrefl 0), h, hnd]
  decide

set_option maxRecDepth 8192 in
/-- **C6 (counterexample)** — The claim reads the reported delta and
direction as those of the token numbers themselves.  At magnitude `10^16`
the two token values differ by exactly `1/100`, yet both round to the same
binary64, so the program reports a flat arrow and `+0.00` where the claim
requires up and `+0.01`. -/
theorem C6_counterexample :
    decimalOfToken (pyReplaceComma "10000000000000000.00".data) <
      decimalOfToken (pyReplaceComma "10000000000000000.01".data) ∧
    describe_difference "$10000000000000000.00".data "$10000000000000000.01".data =
      arrowFlat ++ " +0.00".data := by
  constructor
  · have hpc0 : pyReplaceComma "10000000000000000.00".data =
        "10000000000000000.00".data := by decide
    have hpc1 : pyReplaceComma "10000000000000000.01".data =
        "10000000000000000.01".data := by decide
    have hdw0 : "10000000000000000.00".data.dropWhile (· != '.') = '.' :: ['0', '0'] := by
      decide
    have hdw1 : "10000000000000000.01".data.dropWhile (· != '.') = '.' :: ['0', '1'] := by
      decide
    rw [hpc0, hpc1, decimalOfToken_dot hdw0, decimalOfToken_dot hdw1]
    have htw0 : "10000000000000000.00".data.takeWhile (· != '.') =
        "10000000000000000".data := by decide
    have htw1 : "10000000000000000.01".data.takeWhile (· != '.') =
        "10000000000000000".data := by decide
    rw [htw0, htw1, show natOfDigits ['0', '0'] = 0 from by decide,
      show natOfDigits ['0', '1'] = 1 from by decide]
    push_cast
    norm_num
  · rw [describe_difference, parse_big0, parse_big1]
    show (if pyPos (pySub (.finite ((10 : ℚ) ^ 16)) (.finite ((10 : ℚ) ^ 16))) then arrowUp
        else if pyNeg (pySub (.finite ((10 : ℚ) ^ 16)) (.finite ((10 : ℚ) ^ 16))) then
          arrowDown
        else arrowFlat) ++
        ' ' :: formatPlus2f (pySub (.finite ((10 : ℚ) ^ 16)) (.finite ((10 : ℚ) ^ 16))) =
      arrowFlat ++ " +0.00".data
    rw [show pySub (.finite ((10 : ℚ) ^ 16)) (.finite ((10 : ℚ) ^ 16)) =
        .finite 0 from by rw [pySub, if_pos rfl]]
    rw [if_neg (by simp [pyPos]), if_neg (by simp [pyNeg]), formatPlus2f_zero]

/-
Helper lemmas: persistence.  First the key order of `sort_keys=True`.
-/

theorem strLt_irrefl (a : PyStr) : strLt a a = false := by
  induction a with
  | nil => rfl
  | cons c cs ih => simp [strLt, ih]

theorem strLt_asymm {a b : PyStr} (h : strLt a b = true) : strLt b a = false := by
  induction a generalizing b with
  | nil =>
    cases b with
    | nil => simp [strLt] at h
    | cons x xs => rfl
  | cons c cs ih =>
    cases b with
    | nil => simp [strLt] at h
    | cons x xs =>
      rw [strLt] at h ⊢
      by_cases h1 : c.toNat < x.toNat
      · rw [if_neg (by omega), if_neg (by omega)]
      · rw [if_neg h1] at h
        by_cases h2 : c.toNat = x.toNat
        · rw [if_pos h2] at h
          rw [if_neg (by omega), if_pos (by omega)]
          exact ih h
        · rw [if_neg h2] at h
          cases h

theorem strLt_trans {a b c : PyStr} (h1 : strLt a b = true) (h2 : strLt b c = true) :
    strLt a c = true := by
  induction a generalizing b c with
  | nil =>
    cases c with
    | nil =>
      cases b with
      | nil => simp [strLt] at h1
      | cons y ys => simp [strLt] at h2
    | cons z zs => rfl
  | cons x xs ih =>
    cases b with
    | nil => simp [strLt] at h1
    | cons y ys =>
      cases c with
      | nil => simp [strLt] at h2
      | cons z zs =>
        rw [strLt] at h1 h2 ⊢
        by_cases hxy : x.toNat < y.toNat
        · by_cases hyz : y.toNat < z.toNat
          · rw [if_pos (by omega)]
          · rw [if_neg hyz] at h2
            by_cases hyz2 : y.toNat = z.toNat
            · rw [if_pos (by omega)]
            · rw [if_neg hyz2] at h2
              cases h2
        · rw [if_neg hxy] at h1
          by_cases hxy2 : x.toNat = y.toNat
          · rw [if_pos hxy2] at h1
            by_cases hyz : y.toNat < z.toNat
            · rw [if_pos (by omega)]
            · rw [if_neg hyz] at h2
              by_cases hyz2 : y.toNat = z.toNat
              · rw [if_neg (by omega), if_pos (by omega)]
                rw [if_pos hyz2] at h2
                exact ih h1 h2
              · rw [if_neg hyz2] at h2
                cases h2
          · rw [if_neg hxy2] at h1
            cases h1

theorem strLt_connex {a b : PyStr} (h1 : strLt a b = false) (h2 : strLt b a = false) :
    a = b := by
  induction a generalizing b with
  | nil =>
    cases b with
    | nil => rfl
    | cons x xs => simp [strLt] at h1
  | cons c cs ih =>
    cases b with
    | nil => simp [strLt] at h2
    | cons x xs =>
      rw [strLt] at h1 h2
      by_cases hcx : c.toNat < x.toNat
      · rw [if_pos hcx] at h1
        cases h1
      · by_cases hxc : x.toNat < c.toNat
        · rw [if_pos hxc] at h2
          cases h2
        · have he : c.toNat = x.toNat := by omega
          rw [if_neg hcx, if_pos he] at h1
          rw [if_neg hxc, if_pos (by omega)] at h2
          have hch : c = x := by
            rw [← Char.ofNat_toNat c, ← Char.ofNat_toNat x, he]
          subst hch
          rw [ih h1 h2]

instance : IsTotal (PyStr × LedgerEntry) keyLe :=
  ⟨fun p q => by
    unfold keyLe strLe
    cases hq : strLt q.1 p.1 with
    | false => left; rfl
    | true => right; rw [strLt_asymm hq]; rfl⟩

instance : IsTrans (PyStr × LedgerEntry) keyLe :=
  ⟨fun p q r h1 h2 => by
    unfold keyLe strLe at h1 h2 ⊢
    have hqp : strLt q.1 p.1 = false := by
      cases hx : strLt q.1 p.1 with
      | false => rfl
      | true => rw [hx] at h1; simp at h1
    have hrq : strLt r.1 q.1 = false := by
      cases hx : strLt r.1 q.1 with
      | false => rfl
      | true => rw [hx] at h2; simp at h2
    cases hrp : strLt r.1 p.1 with
    | false => rfl
    | true =>
      exfalso
      cases hqr : strLt q.1 r.1 with
      | true =>
        rw [strLt_trans hqr hrp] at hqp
        cases hqp
      | false =>
        have hione : r.1 = q.1 := strLt_connex hrq hqr
        rw [hione] at hrp
        rw [hrp] at hqp
        cases hqp⟩

theorem sortByKey_idem (st : Ledger) : sortByKey (sortByKey st) = sortByKey st :=
  List.Sorted.insertionSort_eq (List.sorted_insertionSort keyLe st)

theorem char_toNat_valid (c : Char) :
    c.toNat < 0xd800 ∨ (0xdfff < c.toNat ∧ c.toNat < 0x110000) := by
  obtain ⟨val, valid⟩ := c
  rcases valid with h | ⟨h1, h2⟩
  · left
    simpa [Char.toNat, UInt32.toNat, UInt32.lt_def, BitVec.lt_def] using h
  · right
    constructor
    · simpa [Char.toNat, UInt32.toNat, UInt32.lt_def, BitVec.lt_def] using h1
    · simpa [Char.toNat, UInt32.toNat, UInt32.lt_def, BitVec.lt_def] using h2

theorem hexVal_hexDigitChar {k : Nat} (h : k < 16) : hexVal (hexDigitChar k) = some k := by
  interval_cases k <;> decide

theorem parseHex4_toHex4 {n : Nat} (h : n < 0x10000) (t : PyStr) :
    parseHex4 (toHex4 n ++ t) = some (n, t) := by
  show parseHex4 (hexDigitChar (n / 4096 % 16) :: hexDigitChar (n / 256 % 16) ::
    hexDigitChar (n / 16 % 16) :: hexDigitChar (n % 16) :: t) = some (n, t)
  rw [parseHex4, hexVal_hexDigitChar (by omega), hexVal_hexDigitChar (by omega),
    hexVal_hexDigitChar (by omega), hexVal_hexDigitChar (by omega)]
  simp only [Option.some_bind, Option.map_some']
  have : ((n / 4096 % 16 * 16 + n / 256 % 16) * 16 + n / 16 % 16) * 16 + n % 16 = n := by
    omega
  rw [this]

theorem parseEscape_u_bmp {n : Nat} (hlt : n < 0x10000)
    (hlo : ¬ (0xd800 ≤ n ∧ n ≤ 0xdbff)) (hhi : ¬ (0xdc00 ≤ n ∧ n ≤ 0xdfff)) (r : PyStr) :
    parseEscape ('u' :: (toHex4 n ++ r)) = some (Char.ofNat n, r) := by
  rw [parseEscape, if_neg (by decide), if_neg (by decide), if_neg (by decide),
    if_neg (by decide), if_neg (by decide), if_neg (by decide), if_neg (by decide),
    if_neg (by decide), if_pos rfl, parseHex4_toHex4 hlt]
  dsimp only
  rw [if_neg hlo, if_neg hhi]

theorem parseEscape_u_pair {n : Nat} (h1 : 0x10000 ≤ n) (h2 : n < 0x110000) (r : PyStr) :
    parseEscape ('u' :: (toHex4 (0xd800 + (n - 0x10000) / 0x400) ++
      ('\\' :: 'u' :: (toHex4 (0xdc00 + (n - 0x10000) % 0x400) ++ r)))) =
      some (Char.ofNat n, r) := by
  rw [parseEscape, if_neg (by decide), if_neg (by decide), if_neg (by decide),
    if_neg (by decide), if_neg (by decide), if_neg (by decide), if_neg (by decide),
    if_neg (by decide), if_pos rfl, parseHex4_toHex4 (by omega)]
  dsimp only
  rw [if_pos (by constructor <;> omega)]
  rw [if_pos (⟨rfl, rfl⟩ : ('\\' : Char) = '\\' ∧ ('u' : Char) = 'u')]
  rw [parseHex4_toHex4 (by omega)]
  dsimp only
  rw [if_pos (by constructor <;> omega)]
  have : 0x10000 + (0xd800 + (n - 0x10000) / 0x400 - 0xd800) * 0x400 +
      (0xdc00 + (n - 0x10000) % 0x400 - 0xdc00) = n := by
    omega
  rw [this]

theorem parseEscape_quote (r : PyStr) : parseEscape ('"' :: r) = some ('"', r) := rfl

theorem parseEscape_backslash (r : PyStr) : parseEscape ('\\' :: r) = some ('\\', r) := rfl

theorem parseEscape_b (r : PyStr) : parseEscape ('b' :: r) = some ('\x08', r) := rfl

theorem parseEscape_f (r : PyStr) : parseEscape ('f' :: r) = some ('\x0c', r) := rfl

theorem parseEscape_n (r : PyStr) : parseEscape ('n' :: r) = some ('\n', r) := rfl

theorem parseEscape_r (r : PyStr) : parseEscape ('r' :: r) = some ('\r', r) := rfl

theorem parseEscape_t (r : PyStr) : parseEscape ('t' :: r) = some ('\t', r) := rfl

theorem parseStrAux_step_escape {fuel : Nat} {e : PyStr} {ch : Char} {rest : PyStr}
    (hesc : parseEscape e = some (ch, rest)) {s t : PyStr}
    (hrec : parseStrAux fuel rest = some (s, t)) :
    parseStrAux (fuel + 1) ('\\' :: e) = some (ch :: s, t) := by
  rw [parseStrAux, if_neg (by decide), if_pos rfl, hesc]
  dsimp only
  rw [hrec]

theorem parseStrAux_step_lit {fuel : Nat} {c : Char} (h1 : ¬ c = '"') (h2 : ¬ c = '\\')
    (h3 : ¬ c.toNat < 0x20) {rest s t : PyStr}
    (hrec : parseStrAux fuel rest = some (s, t)) :
    parseStrAux (fuel + 1) (c :: rest) = some (c :: s, t) := by
  rw [parseStrAux, if_neg h1, if_neg h2, if_neg h3, hrec]

theorem parseStrAux_escape_step (c : Char) {fuel : Nat} {rest s t : PyStr}
    (hrec : parseStrAux fuel rest = some (s, t)) :
    parseStrAux (fuel + 1) (escapeChar c ++ rest) = some (c :: s, t) := by
  by_cases h1 : c = '"'
  · subst h1
    rw [escapeChar, if_pos rfl]
    exact parseStrAux_step_escape (parseEscape_quote _) hrec
  by_cases h2 : c = '\\'
  · subst h2
    rw [escapeChar, if_neg (by decide), if_pos rfl]
    exact parseStrAux_step_escape (parseEscape_backslash _) hrec
  by_cases h3 : c = '\x08'
  · subst h3
    rw [escapeChar, if_neg (by decide), if_neg (by decide), if_pos rfl]
    exact parseStrAux_step_escape (parseEscape_b _) hrec
  by_cases h4 : c = '\x0c'
  · subst h4
    rw [escapeChar, if_neg (by decide), if_neg (by decide), if_neg (by decide), if_pos rfl]
    exact parseStrAux_step_escape (parseEscape_f _) hrec
  by_cases h5 : c = '\n'
  · subst h5
    rw [escapeChar, if_neg (by decide), if_neg (by decide), if_neg (by decide),
      if_neg (by decide), if_pos rfl]
    exact parseStrAux_step_escape (parseEscape_n _) hrec
  by_cases h6 : c = '\r'
  · subst h6
    rw [escapeChar, if_neg (by decide), if_neg (by decide), if_neg (by decide),
      if_neg (by decide), if_neg (by decide), if_pos rfl]
    exact parseStrAux_step_escape (parseEscape_r _) hrec
  by_cases h7 : c = '\t'
  · subst h7
    rw [escapeChar, if_neg (by decide), if_neg (by decide), if_neg (by decide),
      if_neg (by decide), if_neg (by decide), if_neg (by decide), if_pos rfl]
    exact parseStrAux_step_escape (parseEscape_t _) hrec
  by_cases h8 : 0x20 ≤ c.toNat ∧ c.toNat ≤ 0x7e
  · rw [escapeChar, if_neg h1, if_neg h2, if_neg h3, if_neg h4, if_neg h5, if_neg h6,
      if_neg h7, if_pos h8]
    exact parseStrAux_step_lit h1 h2 (by omega) hrec
  by_cases h9 : c.toNat < 0x10000
  · rw [escapeChar, if_neg h1, if_neg h2, if_neg h3, if_neg h4, if_neg h5, if_neg h6,
      if_neg h7, if_neg h8, if_pos h9]
    have hvalid := char_toNat_valid c
    have hesc : parseEscape ('u' :: (toHex4 c.toNat ++ rest)) =
        some (Char.ofNat c.toNat, rest) :=
      parseEscape_u_bmp h9 (by omega) (by omega) rest
    rw [Char.ofNat_toNat] at hesc
    have := parseStrAux_step_escape hesc hrec
    simpa using this
  · rw [escapeChar, if_neg h1, if_neg h2, if_neg h3, if_neg h4, if_neg h5, if_neg h6,
      if_neg h7, if_neg h8, if_neg h9]
    have hvalid := char_toNat_valid c
    have hub : c.toNat < 0x110000 := by omega
    have hesc : parseEscape ('u' :: (toHex4 (0xd800 + (c.toNat - 0x10000) / 0x400) ++
        ('\\' :: 'u' :: (toHex4 (0xdc00 + (c.toNat - 0x10000) % 0x400) ++ rest)))) =
        some (Char.ofNat c.toNat, rest) :=
      parseEscape_u_pair (by omega) hub rest
    rw [Char.ofNat_toNat] at hesc
    have := parseStrAux_step_escape hesc hrec
    simpa using this

theorem jsonEscape_cons (c : Char) (cs : PyStr) :
    jsonEscape (c :: cs) = escapeChar c ++ jsonEscape cs := by
  rw [jsonEscape, jsonEscape, List.map_cons, List.flatten_cons]

theorem parseStrAux_jsonEscape (s : PyStr) : ∀ (fuel : Nat) (t : PyStr),
    s.length < fuel → parseStrAux fuel (jsonEscape s ++ '"' :: t) = some (s, t) := by
  induction s with
  | nil =>
    intro fuel t hf
    cases fuel with
    | zero => omega
    | succ fuel =>
      rw [jsonEscape]
      simp only [List.map_nil, List.flatten_nil, List.nil_append]
      rw [parseStrAux, if_pos rfl]
  | cons c cs ih =>
    intro fuel t hf
    cases fuel with
    | zero => omega
    | succ fuel =>
      have hf' : cs.length < fuel := by
        simp only [List.length_cons] at hf
        omega
      rw [jsonEscape_cons, List.append_assoc]
      exact parseStrAux_escape_step c (ih fuel t hf')

theorem jsonEscape_length_le (s : PyStr) : s.length ≤ (jsonEscape s).length := by
  induction s with
  | nil => simp [jsonEscape]
  | cons c cs ih =>
    rw [jsonEscape_cons, List.length_append, List.length_cons]
    have h1 : 1 ≤ (escapeChar c).length := by
      rw [escapeChar]
      split_ifs <;> simp
    omega

theorem skipWs_cons_of_ws {c : Char} (h : isJsonWs c = true) (l : PyStr) :
    skipWs (c :: l) = skipWs l := by
  rw [skipWs, skipWs, List.dropWhile_cons, if_pos h]

theorem skipWs_cons_of_not {c : Char} (h : isJsonWs c = false) (l : PyStr) :
    skipWs (c :: l) = c :: l := by
  rw [skipWs, List.dropWhile_cons, if_neg (by simp [h])]

theorem skipWs_renderStr (v t : PyStr) : skipWs (renderStr v ++ t) = renderStr v ++ t := by
  rw [renderStr, List.cons_append]
  exact skipWs_cons_of_not (by decide) _

theorem skipWs_renderStr_append (k x t : PyStr) :
    skipWs ((renderStr k ++ x) ++ t) = (renderStr k ++ x) ++ t := by
  rw [renderStr, List.cons_append, List.cons_append]
  exact skipWs_cons_of_not (by decide) _

theorem parseJString_renderStr (s t : PyStr) :
    parseJString (renderStr s ++ t) = some (s, t) := by
  have hshape : renderStr s ++ t = '"' :: (jsonEscape s ++ '"' :: t) := by
    simp [renderStr]
  rw [hshape, parseJString, if_pos rfl]
  apply parseStrAux_jsonEscape
  have h1 := jsonEscape_length_le s
  simp only [List.length_append, List.length_cons]
  omega

theorem parseStrMember_render (k v t : PyStr) :
    parseStrMember (renderStr k ++ ':' :: ' ' :: (renderStr v ++ t)) =
      some ((k, v), t) := by
  rw [parseStrMember, parseJString_renderStr]
  dsimp only [Option.bind]
  rw [skipWs_cons_of_not (by decide)]
  dsimp only [expectChar]
  rw [if_pos rfl]
  dsimp only [Option.bind]
  rw [skipWs_cons_of_ws (by decide), skipWs_renderStr, parseJString_renderStr]
  rfl

theorem skipWs_renderEntry (e : LedgerEntry) (t : PyStr) :
    skipWs (renderEntry e ++ t) = renderEntry e ++ t := by
  rw [renderEntry, List.cons_append]
  exact skipWs_cons_of_not (by decide) _

theorem parseMembers_renderEntryBody (e : LedgerEntry) (t : PyStr) (fuel : Nat) :
    parseMembers (fuel + 2)
      (renderStr "hash".data ++ ':' :: ' ' :: (renderStr e.hash ++
        ',' :: '\n' :: ' ' :: ' ' :: ' ' :: ' ' :: (renderStr "value".data ++ ':' :: ' ' ::
          (renderStr e.value ++ '\n' :: ' ' :: ' ' :: '\x7d' :: t)))) =
      some ([("hash".data, e.hash), ("value".data, e.value)], t) := by
  rw [parseMembers, parseStrMember_render]
  dsimp only [Option.bind]
  rw [skipWs_cons_of_not (by decide)]
  dsimp only
  rw [if_pos rfl]
  rw [skipWs_cons_of_ws (by decide), skipWs_cons_of_ws (by decide),
    skipWs_cons_of_ws (by decide), skipWs_cons_of_ws (by decide),
    skipWs_cons_of_ws (by decide), skipWs_renderStr]
  rw [parseMembers, parseStrMember_render]
  dsimp only [Option.bind]
  rw [skipWs_cons_of_ws (by decide), skipWs_cons_of_ws (by decide),
    skipWs_cons_of_ws (by decide), skipWs_cons_of_not (by decide)]
  dsimp only
  rw [if_neg (by decide), if_pos rfl]
  rfl

theorem parseStrObj_renderEntry (e : LedgerEntry) (t : PyStr) :
    parseStrObj (renderEntry e ++ t) =
      some ([("hash".data, e.hash), ("value".data, e.value)], t) := by
  have hshape : renderEntry e ++ t =
      '\x7b' :: '\n' :: ' ' :: ' ' :: ' ' :: ' ' ::
        (renderStr "hash".data ++ ':' :: ' ' :: (renderStr e.hash ++
          ',' :: '\n' :: ' ' :: ' ' :: ' ' :: ' ' :: (renderStr "value".data ++ ':' :: ' ' ::
            (renderStr e.value ++ '\n' :: ' ' :: ' ' :: '\x7d' :: t)))) := by
    rw [renderEntry]
    simp
  rw [hshape, parseStrObj]
  dsimp only [expectChar]
  rw [if_pos rfl]
  dsimp only [Option.bind]
  rw [skipWs_cons_of_ws (by decide), skipWs_cons_of_ws (by decide),
    skipWs_cons_of_ws (by decide), skipWs_cons_of_ws (by decide),
    skipWs_cons_of_ws (by decide), skipWs_renderStr]
  have hcons : renderStr "hash".data ++ ':' :: ' ' :: (renderStr e.hash ++
      ',' :: '\n' :: ' ' :: ' ' :: ' ' :: ' ' :: (renderStr "value".data ++ ':' :: ' ' ::
        (renderStr e.value ++ '\n' :: ' ' :: ' ' :: '\x7d' :: t))) =
      '"' :: (jsonEscape "hash".data ++ '"' :: (':' :: ' ' :: (renderStr e.hash ++
      ',' :: '\n' :: ' ' :: ' ' :: ' ' :: ' ' :: (renderStr "value".data ++ ':' :: ' ' ::
        (renderStr e.value ++ '\n' :: ' ' :: ' ' :: '\x7d' :: t))))) := by
    rw [renderStr]
    simp
  rw [hcons]
  dsimp only
  rw [if_neg (by decide), List.length_cons, ← hcons]
  exact parseMembers_renderEntryBody e t _

theorem parseTopMember_render (k : PyStr) (e : LedgerEntry) (t : PyStr) :
    parseTopMember (renderStr k ++ ':' :: ' ' :: (renderEntry e ++ t)) =
      some ((k, e), t) := by
  rw [parseTopMember, parseJString_renderStr]
  dsimp only [Option.bind]
  rw [skipWs_cons_of_not (by decide)]
  dsimp only [expectChar]
  rw [if_pos rfl]
  dsimp only [Option.bind]
  rw [skipWs_cons_of_ws (by decide), skipWs_renderEntry, parseStrObj_renderEntry]
  dsimp only [Option.bind, entryOfPairs]
  rw [if_pos ⟨rfl, rfl⟩]
  rfl

theorem skipWs_renderItems (items : Ledger) (t : PyStr) (hne : items ≠ []) :
    skipWs (renderItems items ++ t) = renderItems items ++ t := by
  match items, hne with
  | (k, e) :: rest, _ =>
    cases rest with
    | nil => exact skipWs_renderStr_append k _ t
    | cons ke2 rest2 => exact skipWs_renderStr_append k _ t

theorem renderItems_length_ge (items : Ledger) :
    items.length ≤ (renderItems items).length := by
  induction items with
  | nil => simp [renderItems]
  | cons ke rest ih =>
    obtain ⟨k, e⟩ := ke
    cases rest with
    | nil =>
      show ([(k, e)] : Ledger).length ≤ (renderStr k ++ ':' :: ' ' :: renderEntry e).length
      simp only [List.length_append, List.length_cons, List.length_nil]
      omega
    | cons ke2 rest2 =>
      show ((k, e) :: ke2 :: rest2 : Ledger).length ≤
        (renderStr k ++ ':' :: ' ' ::
          (renderEntry e ++ ',' :: '\n' :: ' ' :: ' ' :: renderItems (ke2 :: rest2))).length
      simp only [List.length_append, List.length_cons] at ih ⊢
      omega

theorem parseTopMembers_renderItems (t : PyStr) :
    ∀ (items : Ledger) (fuel : Nat), items ≠ [] → items.length ≤ fuel →
      parseTopMembers fuel (renderItems items ++ '\n' :: '\x7d' :: t) = some (items, t) := by
  intro items
  induction items with
  | nil => intro fuel hne _; exact absurd rfl hne
  | cons ke rest ih =>
    intro fuel hne hlen
    obtain ⟨k, e⟩ := ke
    cases fuel with
    | zero => simp at hlen
    | succ f =>
      cases rest with
      | nil =>
        have hs : renderItems [(k, e)] ++ '\n' :: '\x7d' :: t =
            renderStr k ++ ':' :: ' ' :: (renderEntry e ++ '\n' :: '\x7d' :: t) := by
          show (renderStr k ++ ':' :: ' ' :: renderEntry e) ++ '\n' :: '\x7d' :: t = _
          simp
        rw [hs, parseTopMembers, parseTopMember_render]
        dsimp only [Option.bind]
        rw [skipWs_cons_of_ws (by decide), skipWs_cons_of_not (by decide)]
        dsimp only
        rw [if_neg (by decide), if_pos rfl]
      | cons ke2 rest2 =>
        have hs : renderItems ((k, e) :: ke2 :: rest2) ++ '\n' :: '\x7d' :: t =
            renderStr k ++ ':' :: ' ' :: (renderEntry e ++
              ',' :: '\n' :: ' ' :: ' ' ::
                (renderItems (ke2 :: rest2) ++ '\n' :: '\x7d' :: t)) := by
          show (renderStr k ++ ':' :: ' ' ::
              (renderEntry e ++ ',' :: '\n' :: ' ' :: ' ' :: renderItems (ke2 :: rest2))) ++
              '\n' :: '\x7d' :: t = _
          simp
        rw [hs, parseTopMembers, parseTopMember_render]
        dsimp only [Option.bind]
        rw [skipWs_cons_of_not (by decide)]
        dsimp only
        rw [if_pos rfl]
        rw [skipWs_cons_of_ws (by decide), skipWs_cons_of_ws (by decide),
          skipWs_cons_of_ws (by decide), skipWs_renderItems _ _ (by simp)]
        have hlen2 : (ke2 :: rest2 : Ledger).length ≤ f := by
          simp only [List.length_cons] at hlen ⊢
          omega
        rw [ih f (by simp) hlen2]
        rfl

theorem load_state_save_state (st : Ledger) :
    load_state (save_state st) = sortByKey st := by
  rw [load_state, save_state]
  cases hsort : sortByKey st with
  | nil =>
    dsimp only
    rfl
  | cons ke rest =>
    obtain ⟨k, e⟩ := ke
    dsimp only
    rw [parseStateDoc]
    rw [skipWs_cons_of_not (by decide)]
    dsimp only
    rw [if_pos rfl]
    rw [skipWs_cons_of_ws (by decide), skipWs_cons_of_ws (by decide),
      skipWs_cons_of_ws (by decide), skipWs_renderItems _ _ (by simp)]
    obtain ⟨x, hx⟩ : ∃ x, renderItems ((k, e) :: rest) = renderStr k ++ x := by
      cases rest with
      | nil => exact ⟨_, rfl⟩
      | cons ke2 rest2 => exact ⟨_, rfl⟩
    have hcons : renderItems ((k, e) :: rest) ++ ['\n', '\x7d'] =
        '"' :: (jsonEscape k ++ '"' :: (x ++ ['\n', '\x7d'])) := by
      rw [hx, renderStr]
      simp
    rw [hcons]
    dsimp only
    rw [if_neg (by decide), List.length_cons, ← hcons]
    have hbound : ((k, e) :: rest : Ledger).length ≤
        (jsonEscape k ++ '"' :: (x ++ ['\n', '\x7d'])).length + 1 + 1 := by
      have h1 := renderItems_length_ge ((k, e) :: rest)
      have h2 : (renderItems ((k, e) :: rest)).length =
          (renderStr k).length + x.length := by
        rw [hx, List.length_append]
      have h3 : (renderStr k).length = (jsonEscape k).length + 2 := by
        rw [renderStr]
        simp
      simp only [List.length_append, List.length_cons, List.length_nil] at h1 h2 ⊢
      omega
    rw [parseTopMembers_renderItems [] ((k, e) :: rest) _ (by simp) hbound]
    dsimp only [Option.bind]
    rfl

/-- C5: persistence is deterministic and ordered. `save_state` writes the
ledger sorted lexicographically by site id, so persisting, loading,
persisting, loading and persisting again produces output identical to
persisting once, and loading a saved ledger recovers exactly the
key-sorted ledger; repeated saves of the same state are identical because
`save_state` is a function of the ledger alone. -/
theorem C5_roundtrip (st : Ledger) :
    save_state (load_state (save_state (load_state (save_state st)))) = save_state st ∧
    load_state (save_state st) = sortByKey st := by
  have hsave : ∀ s : Ledger, save_state (sortByKey s) = save_state s := by
    intro s
    rw [save_state, save_state, sortByKey_idem]
  refine ⟨?_, load_state_save_state st⟩
  rw [load_state_save_state st, hsave st, load_state_save_state st, hsave st]
